import Mathlib

/-!
Shallow embedding of the Minesweeper knowledge-based inference engine
(class `Sentence` and class `MinesweeperAI` of `minesweeper.py`).

Modelling conventions:
* A board cell is a pair of integers, as in the Python source.
* Python `set` objects are modelled as `Finset (ZMod 0)`-free `Finset Cell`.
  Python mutates sets via the copy-discard-rebind pattern, which has
  value semantics, so `Finset` updates are a faithful translation.
* Python iterates over sets in an unspecified order; every such loop is
  modelled as a fold over the set sorted by a fixed linear order
  (a particular instance of the unspecified order).
* `MinesweeperAI.add_knowledge` contains a `while` loop with no a priori
  bound, so it is modelled with explicit fuel returning `Option`:
  `some st` means the Python loop terminates in at most `fuel` passes
  with final state `st`; `none` means the fuel was exhausted.
* In `add_inferred_sentence`, the list `pairs` holds references to
  sentence objects that are mutated while the loop runs; we model it as
  a list of positions into the `knowledge` list (positions stay valid
  because nothing is ever removed from `knowledge`), and read the
  current value at each position when the pair is processed.
* `add_if_new` can receive Python `None` from `clean_up` inside
  `add_inferred_sentence`.  In that case `in_knowledge(None)` evaluates
  each `None.__eq__(s)` to `NotImplemented`, which is truthy, so `any`
  returns `True` whenever `knowledge` is non-empty (and it is non-empty
  whenever `pairs` is), hence `None` is never appended.  We model this
  by matching on the `Option` and leaving the state unchanged on `none`.
-/

/-- A board position, as the Python `(i, j)` tuple of integers. -/
abbrev Cell : Type := ℤ × ℤ

/-- A fixed linear-order relation on cells, used to iterate over the
elements of a Python set in a definite order. -/
def cellLe (a b : Cell) : Prop :=
  a.1 < b.1 ∨ (a.1 = b.1 ∧ a.2 ≤ b.2)

instance : DecidableRel cellLe := by
  intro a b
  unfold cellLe
  infer_instance

instance : IsTrans Cell cellLe := by
  constructor
  intro a b c hab hbc
  rcases hab with h1 | ⟨h1, h2⟩ <;> rcases hbc with h3 | ⟨h3, h4⟩
  · exact Or.inl (lt_trans h1 h3)
  · exact Or.inl (h3 ▸ h1)
  · exact Or.inl (h1 ▸ h3)
  · exact Or.inr ⟨h1.trans h3, h2.trans h4⟩

instance : IsAntisymm Cell cellLe := by
  constructor
  intro a b hab hba
  rcases hab with h1 | ⟨h1, h2⟩ <;> rcases hba with h3 | ⟨h3, h4⟩
  · exact absurd h3 (asymm h1)
  · exact absurd h1 (h3 ▸ lt_irrefl _)
  · exact absurd h3 (h1 ▸ lt_irrefl _)
  · exact Prod.ext h1 (le_antisymm h2 h4)

instance : IsTotal Cell cellLe := by
  constructor
  intro a b
  rcases lt_trichotomy a.1 b.1 with h | h | h
  · exact Or.inl (Or.inl h)
  · rcases le_total a.2 b.2 with h2 | h2
    · exact Or.inl (Or.inr ⟨h, h2⟩)
    · exact Or.inr (Or.inr ⟨h.symm, h2⟩)
  · exact Or.inr (Or.inl h)

/-- Iterate over a Python set: its elements listed in `cellLe` order.
(Insertion sort is used rather than `Finset.sort` so that the kernel
can evaluate the definition on concrete states.) -/
def sortCells (s : Finset Cell) : List Cell :=
  Quot.liftOn s.val (List.insertionSort cellLe) (by
    intro l1 l2 h
    exact List.eq_of_perm_of_sorted
      (((l1.perm_insertionSort cellLe).trans h).trans
        (l2.perm_insertionSort cellLe).symm)
      (l1.sorted_insertionSort cellLe)
      (l2.sorted_insertionSort cellLe))

/-- Python class `Sentence`: a set of cells together with a count of how
many of them are mines (`minesweeper.py`, lines 88-140). -/
structure Sentence where
  cells : Finset Cell
  count : ℤ
deriving DecidableEq

/-- `Sentence.mark_mine` (lines 121-130): if the cell is present, remove
it and decrement the count. -/
def Sentence.markMine (cell : Cell) (s : Sentence) : Sentence :=
  if cell ∈ s.cells then { cells := s.cells.erase cell, count := s.count - 1 }
  else s

/-- `Sentence.mark_safe` (lines 132-140): if the cell is present, remove
it; the count is untouched. -/
def Sentence.markSafe (cell : Cell) (s : Sentence) : Sentence :=
  if cell ∈ s.cells then { cells := s.cells.erase cell, count := s.count }
  else s

/-- The degenerate empty sentence `Sentence(set(), 0)` built in
`MinesweeperAI.__init__` (line 168). -/
def emptySentence : Sentence := { cells := ∅, count := 0 }

/-- The mutable state of a `MinesweeperAI` object (lines 148-171):
grid bounds, the moves already made, the cells known to be mines or
safe, the list of sentences, and the `KB_has_changed` flag. -/
structure AIState where
  height : ℕ
  width : ℕ
  movesMade : Finset Cell
  mines : Finset Cell
  safes : Finset Cell
  knowledge : List Sentence
  kbChanged : Bool
deriving DecidableEq

/-- `MinesweeperAI.__init__` (lines 148-171): everything starts empty
and the change flag is false. -/
def initialState (height width : ℕ) : AIState :=
  { height := height, width := width, movesMade := ∅, mines := ∅,
    safes := ∅, knowledge := [], kbChanged := false }

/-- `MinesweeperAI.mark_mine` (lines 173-184): if the cell is not
already a known mine, record it, set the change flag, and reduce every
sentence; otherwise just clear the change flag. -/
def markMine (cell : Cell) (st : AIState) : AIState :=
  if cell ∉ st.mines then
    { st with mines := insert cell st.mines,
              kbChanged := true,
              knowledge := st.knowledge.map (Sentence.markMine cell) }
  else
    { st with kbChanged := false }

/-- `MinesweeperAI.mark_safe` (lines 186-197): the guard tests
membership in `self.mines` (not `self.safes`); when the cell is not a
known mine it is added to `safes`, the flag is set and every sentence is
reduced, and when it is a known mine the flag is cleared. -/
def markSafe (cell : Cell) (st : AIState) : AIState :=
  if cell ∉ st.mines then
    { st with safes := insert cell st.safes,
              kbChanged := true,
              knowledge := st.knowledge.map (Sentence.markSafe cell) }
  else
    { st with kbChanged := false }

/-- One step of the `for a in new_safes` loop of `mark_safes`
(lines 341-343): mark the cell safe unless it is already known safe. -/
def mSafesStep (s : AIState) (a : Cell) : AIState :=
  if a ∉ s.safes then markSafe a s else s

/-- `MinesweeperAI.mark_safes` (lines 340-343): mark every cell of the
given set that is not already known safe, in set-iteration order. -/
def markSafes (cs : Finset Cell) (st : AIState) : AIState :=
  (sortCells cs).foldl mSafesStep st

/-- One step of the `for m in new_mines` loop of `mark_mines`
(lines 350-352): mark the cell a mine unless it is already known. -/
def mMinesStep (s : AIState) (m : Cell) : AIState :=
  if m ∉ s.mines then markMine m s else s

/-- `MinesweeperAI.mark_mines` (lines 349-352): mark every cell of the
given set that is not already a known mine, in set-iteration order. -/
def markMines (cs : Finset Cell) (st : AIState) : AIState :=
  (sortCells cs).foldl mMinesStep st

/-- `MinesweeperAI.neighbors` (lines 404-417): the up-to-8 grid
neighbours of a cell, clipped to the board bounds, excluding the cell
itself. -/
def neighbors (height width : ℕ) (cell : Cell) : Finset Cell :=
  (({cell.1 - 1, cell.1, cell.1 + 1} : Finset ℤ) ×ˢ
   ({cell.2 - 1, cell.2, cell.2 + 1} : Finset ℤ)).filter
    (fun p => p ≠ cell ∧ 0 ≤ p.1 ∧ p.1 < (height : ℤ) ∧ 0 ≤ p.2 ∧ p.2 < (width : ℤ))

/-- One step of the `for c in cells` loop of `clean_up` (lines 427-432):
a known-safe cell is discarded, otherwise a known-mine cell is discarded
and the count decremented. -/
def cleanUpStep (st : AIState) (tc : Finset Cell × ℤ) (c : Cell) : Finset Cell × ℤ :=
  if c ∈ st.safes then (tc.1.erase c, tc.2)
  else if c ∈ st.mines then (tc.1.erase c, tc.2 - 1)
  else tc

/-- Resolution part of `MinesweeperAI.clean_up` (lines 435-444), applied
to the filtered cell set and adjusted count: resolve immediately when
the remaining count is 0 (all safe) or equals the remaining cardinality
(all mines), in which case no sentence is returned; otherwise return the
cleaned sentence and leave the state alone. -/
def cleanUpCore (st : AIState) (tc : Finset Cell × ℤ) :
    Option Sentence × AIState :=
  if tc.1.Nonempty then
    if tc.2 = 0 then (none, markSafes tc.1 st)
    else if (tc.1.card : ℤ) = tc.2 then (none, markMines tc.1 st)
    else (some { cells := tc.1, count := tc.2 }, st)
  else (none, st)

/-- `MinesweeperAI.clean_up` (lines 424-444), assembled from the
filtering loop and the resolution branches above. -/
def cleanUp (st : AIState) (cells : Finset Cell) (count : ℤ) :
    Option Sentence × AIState :=
  cleanUpCore st ((sortCells cells).foldl (cleanUpStep st) (cells, count))

/-- `MinesweeperAI.add_if_new` (lines 302-308): append the sentence and
set the change flag unless an equal sentence is already present.  (The
`len(knowledge) == 0` branch of the source appends unconditionally,
which coincides with the membership test on the empty list.) -/
def addIfNew (s : Sentence) (st : AIState) : AIState :=
  if s ∉ st.knowledge then
    { st with knowledge := st.knowledge ++ [s], kbChanged := true }
  else st

/-- Feed an optional sentence produced by `clean_up` to `add_if_new`:
`None` is never appended (see the module comment on `None.__eq__`). -/
def addIfNewOpt (o : Option Sentence) (st : AIState) : AIState :=
  match o with
  | none => st
  | some s => addIfNew s st

/-- Hand the pair returned by `clean_up` to `add_if_new`: the state the
cleanup produced, extended with the cleaned sentence if one survived. -/
def storeResult (q : Option Sentence × AIState) : AIState :=
  addIfNewOpt q.1 q.2

/-- `MinesweeperAI.add_new_sentence` (lines 285-296): clean up the
neighbour set with the clue count and store the result if a sentence
survives. -/
def addNewSentence (cell : Cell) (count : ℤ) (st : AIState) : AIState :=
  storeResult (cleanUp st (neighbors st.height st.width cell) count)

/-- Body of the `for s in self.knowledge` loop of
`mark_additional_cells` (lines 323-332): a truthy `known_mines`
(non-empty cell set with cardinality equal to the count) sets the flag
and marks all those cells as mines, otherwise a truthy `known_safes`
(non-empty cell set with count 0) sets the flag and marks them safe. -/
def mACbody (s : Sentence) (st : AIState) : AIState :=
  if s.cells.Nonempty ∧ (s.cells.card : ℤ) = s.count then
    markMines s.cells { st with kbChanged := true }
  else if s.cells.Nonempty ∧ s.count = 0 then
    markSafes s.cells { st with kbChanged := true }
  else st

/-- The loop of `mark_additional_cells`, iterating positions `0, 1, ...`
of the knowledge list; the fuel equals the number of positions still to
visit (the body never changes the length of `knowledge`, so iterating
`length` many positions reproduces the Python `for` loop exactly). -/
def mACgo : ℕ → ℕ → AIState → AIState
  | 0, _, st => st
  | fuel + 1, i, st =>
    match st.knowledge.get? i with
    | some s => mACgo fuel (i + 1) (mACbody s st)
    | none => st

/-- `MinesweeperAI.mark_additional_cells` (lines 323-332). -/
def markAdditionalCells (st : AIState) : AIState :=
  mACgo st.knowledge.length 0 st

/-- `MinesweeperAI.is_not_empty` (lines 401-402): the sentence is not
equal to the empty sentence. -/
def isNotEmptySentence (s : Sentence) : Prop :=
  s ≠ emptySentence

instance (s : Sentence) : Decidable (isNotEmptySentence s) := by
  unfold isNotEmptySentence
  infer_instance

/-- `MinesweeperAI.unique_pairs` (lines 387-390): the positions (into
the current knowledge list) of `itertools.combinations` of the
sentences that are not the empty sentence, keeping only pairs whose two
members are not equal at the time the list is built. -/
def uniquePairs (st : AIState) : List (ℕ × ℕ) :=
  let ks := st.knowledge
  let idxs := (List.range ks.length).filter
    (fun i => decide (isNotEmptySentence (ks.getD i emptySentence)))
  (idxs.product idxs).filter
    (fun p => p.1 < p.2 ∧ ks.getD p.1 emptySentence ≠ ks.getD p.2 emptySentence)

/-- Body of the `for (s1, s2) in pairs` loop of `add_inferred_sentence`
(lines 363-379) on the two sentences of the pair: when one cell set is
a strict subset of the other, clean up the difference sentence and hand
the result to `add_if_new`. -/
def aIScore (st : AIState) (s1 s2 : Sentence) : AIState :=
  if s1.cells ⊂ s2.cells then
    storeResult (cleanUp st (s2.cells \ s1.cells) (s2.count - s1.count))
  else if s2.cells ⊂ s1.cells then
    storeResult (cleanUp st (s1.cells \ s2.cells) (s1.count - s2.count))
  else st

/-- Body of the pair loop, reading the current sentences at the two
recorded positions of the pair. -/
def aISbody (st : AIState) (p : ℕ × ℕ) : AIState :=
  aIScore st (st.knowledge.getD p.1 emptySentence) (st.knowledge.getD p.2 emptySentence)

/-- `MinesweeperAI.add_inferred_sentence` (lines 360-379): build the
pair list once, then process each pair in order. -/
def addInferredSentence (st : AIState) : AIState :=
  (uniquePairs st).foldl aISbody st

/-- One pass of the `while self.KB_has_changed` loop of `add_knowledge`
(lines 238-241): clear the flag, mark additional cells, infer. -/
def deducePass (st : AIState) : AIState :=
  addInferredSentence (markAdditionalCells { st with kbChanged := false })

/-- The `while self.KB_has_changed` loop itself, with explicit fuel.
`some st` means the loop exits (flag false) with state `st`. -/
def deduceLoop : ℕ → AIState → Option AIState
  | 0, st => if st.kbChanged then none else some st
  | fuel + 1, st =>
    if st.kbChanged then deduceLoop fuel (deducePass st) else some st

/-- `MinesweeperAI.add_knowledge` (lines 199-241): record the move, mark
the cell safe, ingest the new sentence, run one marking and one
inference step, then loop to a fixed point. -/
def addKnowledge (fuel : ℕ) (cell : Cell) (count : ℤ) (st : AIState) :
    Option AIState :=
  let st1 := { st with movesMade := insert cell st.movesMade }
  let st2 := markSafe cell st1
  let st3 := addNewSentence cell count st2
  let st4 := markAdditionalCells st3
  let st5 := addInferredSentence st4
  deduceLoop fuel st5

/-- `MinesweeperAI.make_safe_move` (lines 243-256): pop an element of
`safes - moves_made` if that set is non-empty, else `None`.  The pop of
an arbitrary element is modelled as the head of the sorted listing; the
function reads the state and returns only a cell. -/
def makeSafeMove (st : AIState) : Option Cell :=
  (sortCells (st.safes \ st.movesMade)).head?

/-- `MinesweeperAI.all_possible_moves` (lines 447-452): every cell of
the grid. -/
def allPossibleMoves (height width : ℕ) : Finset Cell :=
  (Finset.range height ×ˢ Finset.range width).image
    (fun p => ((p.1 : ℤ), (p.2 : ℤ)))

/-- `MinesweeperAI.make_random_move` (lines 258-270): pop an element of
the grid cells minus moves made minus known mines, if any. -/
def makeRandomMove (st : AIState) : Option Cell :=
  (sortCells ((allPossibleMoves st.height st.width \ st.movesMade) \ st.mines)).head?

/-- A public operation on the knowledge base.  `observe` carries the
fuel bound for its internal fixed-point loop; the two move queries read
the state without modifying it. -/
inductive AIOp where
  | observe (cell : Cell) (count : ℤ) (fuel : ℕ)
  | mine (cell : Cell)
  | safe (cell : Cell)
  | safeMove
  | randomMove

/-- Apply one public operation.  `none` means the fixed-point loop of an
`observe` ran out of fuel (the Python call did not return within that
many passes). -/
def applyOp (op : AIOp) (st : AIState) : Option AIState :=
  match op with
  | .observe cell count fuel => addKnowledge fuel cell count st
  | .mine cell => some (markMine cell st)
  | .safe cell => some (markSafe cell st)
  | .safeMove => some st
  | .randomMove => some st

/-- Run a sequence of public operations. -/
def runOps : List AIOp → AIState → Option AIState
  | [], st => some st
  | op :: rest, st => (applyOp op st).bind (runOps rest)

/-- The run returned normally and its final state satisfies `P`. -/
def ResultOk (P : AIState → Prop) : Option AIState → Prop
  | none => False
  | some st => P st

instance (P : AIState → Prop) [DecidablePred P] :
    ∀ o : Option AIState, Decidable (ResultOk P o)
  | none => isFalse (fun h => h)
  | some st => inferInstanceAs (Decidable (P st))

/-- The knowledge base of the spec example for subset inference: the
sentences `A = {a, b} = 1` and `B = {a, b, c} = 2` with `a = (0,0)`,
`b = (0,1)`, `c = (0,2)` on a 3 by 3 grid. -/
def pairExampleState : AIState :=
  { initialState 3 3 with
      knowledge := [{ cells := {(0,0),(0,1)}, count := 1 },
                    { cells := {(0,0),(0,1),(0,2)}, count := 2 }] }

/-- The same two sentences stored in the opposite order, so that the
pair loop takes its symmetric branch (`B.cells` a strict subset of
`A.cells`). -/
def pairExampleStateRev : AIState :=
  { initialState 3 3 with
      knowledge := [{ cells := {(0,0),(0,1),(0,2)}, count := 2 },
                    { cells := {(0,0),(0,1)}, count := 1 }] }

/-- Two stored sentences with incomparable cell sets: the pair loop
leaves the state unchanged on their pair. -/
def pairExampleStateInc : AIState :=
  { initialState 3 3 with
      knowledge := [{ cells := {(0,0)}, count := 1 },
                    { cells := {(0,1)}, count := 1 }] }

/-- Every cell mentioned by a stored sentence is still undetermined:
it belongs neither to `safes` nor to `mines`. -/
def KClean (st : AIState) : Prop :=
  ∀ s ∈ st.knowledge, ∀ c ∈ s.cells, c ∉ st.safes ∧ c ∉ st.mines

instance (st : AIState) : Decidable (KClean st) := by
  unfold KClean
  infer_instance

/-- The sentence is true of the mine set `M`: exactly `count` of its
cells are mines. -/
def TrueSent (M : Finset Cell) (s : Sentence) : Prop :=
  ((s.cells ∩ M).card : ℤ) = s.count

instance (M : Finset Cell) (s : Sentence) : Decidable (TrueSent M s) := by
  unfold TrueSent
  infer_instance

/-- The whole knowledge base is consistent with the fixed mine set `M`
(this is what a run with clues coming from an actual board maintains):
`M` lies on the grid, every recorded mine is in `M`, no recorded safe
cell is in `M`, every stored sentence is true of `M` and mentions only
grid cells, and stored sentences mention only undetermined cells. -/
def Consistent (M : Finset Cell) (st : AIState) : Prop :=
  M ⊆ allPossibleMoves st.height st.width ∧
  st.mines ⊆ M ∧
  (∀ c ∈ st.safes, c ∉ M) ∧
  (∀ s ∈ st.knowledge, TrueSent M s ∧ s.cells ⊆ allPossibleMoves st.height st.width) ∧
  KClean st

instance (M : Finset Cell) (st : AIState) : Decidable (Consistent M st) := by
  unfold Consistent
  infer_instance

/-- The number of grid cells not yet marked safe or mine. -/
def unmarkedCount (st : AIState) : ℕ :=
  (allPossibleMoves st.height st.width \ (st.safes ∪ st.mines)).card

/-- All sentences a consistent knowledge base can ever store: cell sets
drawn from the grid with counts between 0 and the grid size. -/
def sentSpace (height width : ℕ) : Finset Sentence :=
  ((allPossibleMoves height width).powerset ×ˢ
    Finset.range ((allPossibleMoves height width).card + 1)).image
    (fun p => { cells := p.1, count := (p.2 : ℤ) })

/-- The number of sentences of the space not present in `knowledge`. -/
def kbMissing (st : AIState) : ℕ :=
  ((sentSpace st.height st.width) \ st.knowledge.toFinset).card

/-- Termination potential of the deduction loop: marking a grid cell
strictly decreases the first summand, storing a new sentence of the
space strictly decreases the second. -/
def potential (st : AIState) : ℕ :=
  unmarkedCount st * ((sentSpace st.height st.width).card + 1) + kbMissing st

/-- Progress bookkeeping for one step of the deduction pass: dimensions
unchanged, the potential does not grow, and the change flag can only
become set together with a strict potential decrease. -/
def Prog (st st' : AIState) : Prop :=
  st'.height = st.height ∧ st'.width = st.width ∧
  potential st' ≤ potential st ∧
  (st'.kbChanged = true → st.kbChanged = true ∨ potential st' < potential st)

/-!  Basic lemmas about `sortCells`.  -/

theorem sortCells_coe (s : Finset Cell) :
    ((sortCells s : List Cell) : Multiset Cell) = s.val := by
  rcases s with ⟨m, nd⟩
  induction m using Quotient.inductionOn with
  | h l => exact Quot.sound (l.perm_insertionSort cellLe)

theorem mem_sortCells {s : Finset Cell} {c : Cell} :
    c ∈ sortCells s ↔ c ∈ s := by
  rw [← Multiset.mem_coe, sortCells_coe]
  rfl

theorem sortCells_nodup (s : Finset Cell) : (sortCells s).Nodup := by
  have h : Multiset.Nodup (sortCells s : Multiset Cell) := by
    rw [sortCells_coe]
    exact s.nodup
  exact h

theorem sortCells_eq_nil_iff {s : Finset Cell} : sortCells s = [] ↔ s = ∅ := by
  constructor
  · intro h
    ext c
    simp only [Finset.not_mem_empty, iff_false]
    intro hc
    have := mem_sortCells.mpr hc
    simp [h] at this
  · intro h
    subst h
    have h0 : ((sortCells (∅ : Finset Cell) : List Cell) : Multiset Cell) = 0 :=
      sortCells_coe ∅
    exact (Multiset.coe_eq_zero _).mp h0

/-!  Concrete executions.  -/

/-- Claim C3: starting fresh on a 3 by 3 grid, the three clues
`(1,1) -> 1`, `(0,1) -> 1`, `(1,0) -> 1` (the clues a board with a
single mine at `(0,0)` produces) leave the engine with
`mines = {(0,0)}` and all eight other cells in `safes`, with no fourth
clue required. -/
theorem claim3_three_clue_scenario :
    ∃ st : AIState,
      runOps [AIOp.observe (1,1) 1 20, AIOp.observe (0,1) 1 20,
              AIOp.observe (1,0) 1 20] (initialState 3 3) = some st ∧
      st.mines = {(0,0)} ∧
      ({(0,1),(0,2),(1,0),(1,1),(1,2),(2,0),(2,1),(2,2)} : Finset Cell) ⊆ st.safes := by
  have hs : (runOps [AIOp.observe (1,1) 1 20, AIOp.observe (0,1) 1 20,
      AIOp.observe (1,0) 1 20] (initialState 3 3)).isSome = true := by decide
  obtain ⟨st, hst⟩ := Option.isSome_iff_exists.mp hs
  have hP : ResultOk (fun st =>
      st.mines ⊆ {(0,0)} ∧ ({(0,0)} : Finset Cell) ⊆ st.mines ∧
      ({(0,1),(0,2),(1,0),(1,1),(1,2),(2,0),(2,1),(2,2)} : Finset Cell) ⊆ st.safes)
      (runOps [AIOp.observe (1,1) 1 20, AIOp.observe (0,1) 1 20,
        AIOp.observe (1,0) 1 20] (initialState 3 3)) := by decide
  rw [hst] at hP
  exact ⟨st, hst, Finset.Subset.antisymm hP.1 hP.2.1, hP.2.2⟩

/-- Claim C4 fails on the code: `mark_mine` does not guard against the
cell being already known safe, so marking `(0,0)` safe and then marking
it a mine leaves `(0,0)` in both `safes` and `mines`. -/
theorem claim4_disjointness_violated :
    (0,0) ∈ (markMine (0,0) (markSafe (0,0) (initialState 3 3))).safes ∧
    (0,0) ∈ (markMine (0,0) (markSafe (0,0) (initialState 3 3))).mines := by
  decide

/-- Claim C7 fails on the code: asking to mark safe a cell already
known as a mine is silently ignored (the cell is not added to `safes`,
no error is signalled, the state is unchanged apart from the change
flag being cleared); and the reverse direction silently corrupts
instead of rejecting. -/
theorem claim7_silent_contradiction :
    (markSafe (0,0) (markMine (0,0) (initialState 3 3))).safes = ∅ ∧
    (markSafe (0,0) (markMine (0,0) (initialState 3 3))).mines
      = (markMine (0,0) (initialState 3 3)).mines ∧
    (markSafe (0,0) (markMine (0,0) (initialState 3 3))).knowledge = [] ∧
    (markSafe (0,0) (markMine (0,0) (initialState 3 3))).kbChanged = false := by
  decide

/-- Claim C5 fails on the code: after the in-range clues `(1,1) -> 1`
and `(0,0) -> 3` on a 3 by 3 grid (clues no single board can produce),
the knowledge base holds a sentence with negative count as well as a
sentence whose count exceeds its number of cells, at a point where
control has returned to the caller. -/
theorem claim5_counterexample :
    ResultOk (fun st =>
      (∃ s ∈ st.knowledge, s.count < 0) ∧
      (∃ s ∈ st.knowledge, (s.cells.card : ℤ) < s.count))
      (runOps [AIOp.observe (1,1) 1 20, AIOp.observe (0,0) 3 20]
        (initialState 3 3)) := by
  decide

/-- Claim C6 fails on the code: after the three clues of the
single-mine scenario, the degenerate empty sentence is retained in
`knowledge` (twice) even though control has returned to the caller. -/
theorem claim6_counterexample :
    ResultOk (fun st => emptySentence ∈ st.knowledge)
      (runOps [AIOp.observe (1,1) 1 20, AIOp.observe (0,1) 1 20,
        AIOp.observe (1,0) 1 20] (initialState 3 3)) := by
  decide

/-- Claim C9: `make_safe_move` returns a cell of `safes - moves_made`
whenever that set is non-empty and `None` exactly when it is empty; in
particular it never returns a cell already played and only returns
known-safe cells.  (The function reads the state and returns only a
cell, so `moves_made`, `safes`, `mines` and `knowledge` are untouched by
construction.) -/
theorem claim9_safe_move (st : AIState) :
    (makeSafeMove st = none ↔ st.safes \ st.movesMade = ∅) ∧
    ∀ c, makeSafeMove st = some c → c ∈ st.safes ∧ c ∉ st.movesMade := by
  constructor
  · rw [makeSafeMove, List.head?_eq_none_iff, sortCells_eq_nil_iff]
  · intro c hc
    have hmem : c ∈ sortCells (st.safes \ st.movesMade) := by
      rcases hl : sortCells (st.safes \ st.movesMade) with _ | ⟨a, l⟩
      · rw [makeSafeMove, hl] at hc
        exact absurd hc (by simp)
      · rw [makeSafeMove, hl] at hc
        simp only [List.head?] at hc
        exact (Option.some_inj.mp hc) ▸ List.mem_cons_self a l
    have := Finset.mem_sdiff.mp (mem_sortCells.mp hmem)
    exact ⟨this.1, this.2⟩

/-- Claim C9 witness: on a state knowing `(0,0)` and `(1,1)` safe with
`(0,0)` already played, the returned move is safe and unplayed. -/
theorem claim9_witness :
    (1,1) ∈ ({(0,0),(1,1)} : Finset Cell) ∧
    (1,1) ∉ ({(0,0)} : Finset Cell) :=
  (claim9_safe_move
    { initialState 3 3 with safes := {(0,0),(1,1)}, movesMade := {(0,0)} }).2
    (1,1) (by decide)

/-!  Field lemmas for the two marking primitives.  -/

theorem markSafe_mines (c : Cell) (st : AIState) :
    (markSafe c st).mines = st.mines := by
  unfold markSafe
  split <;> rfl

theorem markSafe_movesMade (c : Cell) (st : AIState) :
    (markSafe c st).movesMade = st.movesMade := by
  unfold markSafe
  split <;> rfl

theorem markSafe_height (c : Cell) (st : AIState) :
    (markSafe c st).height = st.height := by
  unfold markSafe
  split <;> rfl

theorem markSafe_width (c : Cell) (st : AIState) :
    (markSafe c st).width = st.width := by
  unfold markSafe
  split <;> rfl

theorem markSafe_knowledge_length (c : Cell) (st : AIState) :
    (markSafe c st).knowledge.length = st.knowledge.length := by
  unfold markSafe
  split
  · exact List.length_map _ _
  · rfl

theorem markSafe_safes_sub (c : Cell) (st : AIState) :
    st.safes ⊆ (markSafe c st).safes := by
  unfold markSafe
  split
  · exact Finset.subset_insert _ _
  · exact Finset.Subset.refl _

theorem markSafe_safes_sub_insert (c : Cell) (st : AIState) :
    (markSafe c st).safes ⊆ insert c st.safes := by
  unfold markSafe
  split
  · exact Finset.Subset.refl _
  · exact Finset.subset_insert _ _

theorem mem_markSafe_safes {c : Cell} {st : AIState} (h : c ∉ st.mines) :
    c ∈ (markSafe c st).safes := by
  unfold markSafe
  rw [if_pos h]
  exact Finset.mem_insert_self _ _

theorem markMine_safes (c : Cell) (st : AIState) :
    (markMine c st).safes = st.safes := by
  unfold markMine
  split <;> rfl

theorem markMine_movesMade (c : Cell) (st : AIState) :
    (markMine c st).movesMade = st.movesMade := by
  unfold markMine
  split <;> rfl

theorem markMine_height (c : Cell) (st : AIState) :
    (markMine c st).height = st.height := by
  unfold markMine
  split <;> rfl

theorem markMine_width (c : Cell) (st : AIState) :
    (markMine c st).width = st.width := by
  unfold markMine
  split <;> rfl

theorem markMine_knowledge_length (c : Cell) (st : AIState) :
    (markMine c st).knowledge.length = st.knowledge.length := by
  unfold markMine
  split
  · exact List.length_map _ _
  · rfl

theorem markMine_mines_sub (c : Cell) (st : AIState) :
    st.mines ⊆ (markMine c st).mines := by
  unfold markMine
  split
  · exact Finset.subset_insert _ _
  · exact Finset.Subset.refl _

theorem markMine_mines_sub_insert (c : Cell) (st : AIState) :
    (markMine c st).mines ⊆ insert c st.mines := by
  unfold markMine
  split
  · exact Finset.Subset.refl _
  · exact Finset.subset_insert _ _

theorem mem_markMine_mines (c : Cell) (st : AIState) :
    c ∈ (markMine c st).mines := by
  unfold markMine
  split
  · exact Finset.mem_insert_self _ _
  · next h => exact not_not.mp h

/-!  A growth preorder on states, and its preservation by every
operation of the engine.  -/

/-- The tracked sets only grow, the knowledge list never shrinks, and
the grid dimensions never change. -/
def StateLe (a b : AIState) : Prop :=
  a.height = b.height ∧ a.width = b.width ∧
  a.movesMade ⊆ b.movesMade ∧ a.mines ⊆ b.mines ∧ a.safes ⊆ b.safes ∧
  a.knowledge.length ≤ b.knowledge.length

theorem stateLe_refl (a : AIState) : StateLe a a :=
  ⟨rfl, rfl, Finset.Subset.refl _, Finset.Subset.refl _, Finset.Subset.refl _,
   Nat.le_refl _⟩

theorem stateLe_trans {a b c : AIState} (h1 : StateLe a b) (h2 : StateLe b c) :
    StateLe a c :=
  ⟨h1.1.trans h2.1, h1.2.1.trans h2.2.1,
   h1.2.2.1.trans h2.2.2.1, h1.2.2.2.1.trans h2.2.2.2.1,
   h1.2.2.2.2.1.trans h2.2.2.2.2.1, h1.2.2.2.2.2.trans h2.2.2.2.2.2⟩

/-- Fold a step that only grows the state: the fold grows the state. -/
theorem foldl_stateLe {α : Type} (f : AIState → α → AIState)
    (hstep : ∀ st x, StateLe st (f st x)) :
    ∀ (l : List α) (st : AIState), StateLe st (l.foldl f st) := by
  intro l
  induction l with
  | nil => exact fun st => stateLe_refl st
  | cons x l ih =>
    intro st
    exact stateLe_trans (hstep st x) (ih (f st x))

theorem markSafe_le (c : Cell) (st : AIState) : StateLe st (markSafe c st) :=
  ⟨(markSafe_height c st).symm, (markSafe_width c st).symm,
   by rw [markSafe_movesMade],
   by rw [markSafe_mines],
   markSafe_safes_sub c st,
   Nat.le_of_eq (markSafe_knowledge_length c st).symm⟩

theorem markMine_le (c : Cell) (st : AIState) : StateLe st (markMine c st) :=
  ⟨(markMine_height c st).symm, (markMine_width c st).symm,
   by rw [markMine_movesMade],
   markMine_mines_sub c st,
   by rw [markMine_safes],
   Nat.le_of_eq (markMine_knowledge_length c st).symm⟩

theorem mSafesStep_le (s : AIState) (a : Cell) : StateLe s (mSafesStep s a) := by
  unfold mSafesStep
  split
  · exact markSafe_le a s
  · exact stateLe_refl s

theorem mMinesStep_le (s : AIState) (m : Cell) : StateLe s (mMinesStep s m) := by
  unfold mMinesStep
  split
  · exact markMine_le m s
  · exact stateLe_refl s

theorem markSafes_le (cs : Finset Cell) (st : AIState) :
    StateLe st (markSafes cs st) :=
  foldl_stateLe mSafesStep mSafesStep_le (sortCells cs) st

theorem markMines_le (cs : Finset Cell) (st : AIState) :
    StateLe st (markMines cs st) :=
  foldl_stateLe mMinesStep mMinesStep_le (sortCells cs) st

theorem cleanUpCore_le (st : AIState) (tc : Finset Cell × ℤ) :
    StateLe st (cleanUpCore st tc).2 := by
  unfold cleanUpCore
  split
  · split
    · exact markSafes_le _ st
    · split
      · exact markMines_le _ st
      · exact stateLe_refl st
  · exact stateLe_refl st

theorem cleanUp_le (st : AIState) (cells : Finset Cell) (count : ℤ) :
    StateLe st (cleanUp st cells count).2 :=
  cleanUpCore_le st _

theorem addIfNew_le (s : Sentence) (st : AIState) : StateLe st (addIfNew s st) := by
  unfold addIfNew
  split
  · exact ⟨rfl, rfl, Finset.Subset.refl _, Finset.Subset.refl _, Finset.Subset.refl _,
      by simp⟩
  · exact stateLe_refl st

theorem addIfNewOpt_le (o : Option Sentence) (st : AIState) :
    StateLe st (addIfNewOpt o st) := by
  cases o with
  | none => exact stateLe_refl st
  | some s => exact addIfNew_le s st

theorem storeResult_cleanUp_le (st : AIState) (cells : Finset Cell) (count : ℤ) :
    StateLe st (storeResult (cleanUp st cells count)) :=
  stateLe_trans (cleanUp_le st cells count) (addIfNewOpt_le _ _)

theorem addNewSentence_le (cell : Cell) (count : ℤ) (st : AIState) :
    StateLe st (addNewSentence cell count st) :=
  storeResult_cleanUp_le st _ count

theorem mACbody_le (s : Sentence) (st : AIState) : StateLe st (mACbody s st) := by
  unfold mACbody
  have hflag : StateLe st { st with kbChanged := true } :=
    ⟨rfl, rfl, Finset.Subset.refl _, Finset.Subset.refl _, Finset.Subset.refl _,
     Nat.le_refl _⟩
  split
  · exact stateLe_trans hflag (markMines_le _ _)
  · split
    · exact stateLe_trans hflag (markSafes_le _ _)
    · exact stateLe_refl st

theorem mACgo_le : ∀ (fuel i : ℕ) (st : AIState), StateLe st (mACgo fuel i st) := by
  intro fuel
  induction fuel with
  | zero => exact fun i st => stateLe_refl st
  | succ n ih =>
    intro i st
    unfold mACgo
    split
    · next s _ => exact stateLe_trans (mACbody_le s st) (ih (i + 1) _)
    · exact stateLe_refl st

theorem markAdditionalCells_le (st : AIState) : StateLe st (markAdditionalCells st) :=
  mACgo_le _ 0 st

theorem aIScore_le (st : AIState) (s1 s2 : Sentence) : StateLe st (aIScore st s1 s2) := by
  unfold aIScore
  split
  · exact storeResult_cleanUp_le st _ _
  · split
    · exact storeResult_cleanUp_le st _ _
    · exact stateLe_refl st

theorem aISbody_le (st : AIState) (p : ℕ × ℕ) : StateLe st (aISbody st p) :=
  aIScore_le st _ _

theorem addInferredSentence_le (st : AIState) : StateLe st (addInferredSentence st) :=
  foldl_stateLe aISbody aISbody_le (uniquePairs st) st

theorem clearFlag_le (st : AIState) : StateLe st { st with kbChanged := false } :=
  ⟨rfl, rfl, Finset.Subset.refl _, Finset.Subset.refl _, Finset.Subset.refl _,
   Nat.le_refl _⟩

theorem deducePass_le (st : AIState) : StateLe st (deducePass st) :=
  stateLe_trans (stateLe_trans (clearFlag_le st) (markAdditionalCells_le _))
    (addInferredSentence_le _)

theorem deduceLoop_le : ∀ (fuel : ℕ) (st st' : AIState),
    deduceLoop fuel st = some st' → StateLe st st' := by
  intro fuel
  induction fuel with
  | zero =>
    intro st st' h
    unfold deduceLoop at h
    split at h
    · exact absurd h (by simp)
    · exact (Option.some_inj.mp h) ▸ stateLe_refl st
  | succ n ih =>
    intro st st' h
    unfold deduceLoop at h
    split at h
    · exact stateLe_trans (deducePass_le st) (ih _ _ h)
    · exact (Option.some_inj.mp h) ▸ stateLe_refl st

theorem addKnowledge_le {fuel : ℕ} {cell : Cell} {count : ℤ} {st st' : AIState}
    (h : addKnowledge fuel cell count st = some st') : StateLe st st' := by
  unfold addKnowledge at h
  have h1 : StateLe st { st with movesMade := insert cell st.movesMade } :=
    ⟨rfl, rfl, Finset.subset_insert _ _, Finset.Subset.refl _, Finset.Subset.refl _,
     Nat.le_refl _⟩
  exact stateLe_trans (stateLe_trans (stateLe_trans (stateLe_trans (stateLe_trans h1
    (markSafe_le _ _)) (addNewSentence_le _ _ _))
    (markAdditionalCells_le _)) (addInferredSentence_le _))
    (deduceLoop_le _ _ _ h)

theorem applyOp_le {op : AIOp} {st st' : AIState}
    (h : applyOp op st = some st') : StateLe st st' := by
  cases op with
  | observe cell count fuel => exact addKnowledge_le h
  | mine cell =>
    exact (Option.some_inj.mp h) ▸ markMine_le cell st
  | safe cell =>
    exact (Option.some_inj.mp h) ▸ markSafe_le cell st
  | safeMove =>
    exact (Option.some_inj.mp h) ▸ stateLe_refl st
  | randomMove =>
    exact (Option.some_inj.mp h) ▸ stateLe_refl st

theorem runOps_le : ∀ (ops : List AIOp) (st st' : AIState),
    runOps ops st = some st' → StateLe st st' := by
  intro ops
  induction ops with
  | nil =>
    intro st st' h
    exact (Option.some_inj.mp h) ▸ stateLe_refl st
  | cons op rest ih =>
    intro st st' h
    unfold runOps at h
    rcases ho : applyOp op st with _ | st1
    · rw [ho] at h
      exact absurd h (by simp)
    · rw [ho] at h
      simp only [Option.some_bind] at h
      exact stateLe_trans (applyOp_le ho) (ih st1 st' h)

/-!  Characterisation of the filtering loop of `clean_up`.  -/

theorem cleanUpFold_list (st : AIState) :
    ∀ (l : List Cell) (t : Finset Cell) (k : ℤ),
      l.foldl (cleanUpStep st) (t, k) =
        (l.foldl (fun t2 c => if c ∈ st.safes ∨ c ∈ st.mines then t2.erase c else t2) t,
         k - l.countP (fun c => decide (c ∉ st.safes ∧ c ∈ st.mines))) := by
  intro l
  induction l with
  | nil => intro t k; simp
  | cons c l ih =>
    intro t k
    simp only [List.foldl_cons, List.countP_cons]
    by_cases h1 : c ∈ st.safes
    · rw [show cleanUpStep st (t, k) c = (t.erase c, k) by
        unfold cleanUpStep; rw [if_pos h1]]
      rw [ih (t.erase c) k]
      simp [h1]
    · by_cases h2 : c ∈ st.mines
      · rw [show cleanUpStep st (t, k) c = (t.erase c, k - 1) by
          unfold cleanUpStep; rw [if_neg h1, if_pos h2]]
        rw [ih (t.erase c) (k - 1)]
        refine Prod.ext ?_ ?_
        · simp [h2]
        · simp only [h1, h2, decide_eq_true_eq, not_false_iff, and_self,
            if_true, not_true]
          simp [h1, h2]
          omega
      · rw [show cleanUpStep st (t, k) c = (t, k) by
          unfold cleanUpStep; rw [if_neg h1, if_neg h2]]
        rw [ih t k]
        simp [h1, h2]

theorem eraseFold_list (p : Cell → Prop) [DecidablePred p] :
    ∀ (l : List Cell) (t : Finset Cell),
      l.foldl (fun t2 c => if p c then t2.erase c else t2) t =
        t \ (l.filter (fun c => decide (p c))).toFinset := by
  intro l
  induction l with
  | nil => intro t; simp
  | cons c l ih =>
    intro t
    simp only [List.foldl_cons]
    by_cases hp : p c
    · rw [if_pos hp, ih (t.erase c)]
      have hf : (c :: l).filter (fun c => decide (p c)) =
          c :: l.filter (fun c => decide (p c)) := by
        simp [List.filter_cons, hp]
      rw [hf]
      ext x
      simp only [Finset.mem_sdiff, Finset.mem_erase, List.mem_toFinset,
        List.mem_cons]
      tauto
    · rw [if_neg hp]
      rw [ih t]
      have hf : (c :: l).filter (fun c => decide (p c)) =
          l.filter (fun c => decide (p c)) := by
        simp [List.filter_cons, hp]
      rw [hf]

theorem sortCells_filter_toFinset (cells : Finset Cell) (p : Cell → Prop)
    [DecidablePred p] :
    ((sortCells cells).filter (fun c => decide (p c))).toFinset =
      cells.filter p := by
  ext x
  simp only [List.mem_toFinset, List.mem_filter, Finset.mem_filter,
    mem_sortCells, decide_eq_true_eq]

theorem sortCells_countP (cells : Finset Cell) (p : Cell → Prop)
    [DecidablePred p] :
    (sortCells cells).countP (fun c => decide (p c)) = (cells.filter p).card := by
  rw [List.countP_eq_length_filter]
  rw [← sortCells_filter_toFinset cells p]
  exact (List.toFinset_card_of_nodup ((sortCells_nodup cells).filter _)).symm

/-- The filtering loop of `clean_up`, characterised declaratively: the
surviving cells are those not already resolved, and the count drops by
one for every cell removed through the known-mine branch. -/
theorem cleanUpFold (st : AIState) (cells : Finset Cell) (count : ℤ) :
    (sortCells cells).foldl (cleanUpStep st) (cells, count) =
      (cells.filter (fun c => c ∉ st.safes ∧ c ∉ st.mines),
       count - ((cells.filter (fun c => c ∉ st.safes ∧ c ∈ st.mines)).card : ℤ)) := by
  rw [cleanUpFold_list]
  refine Prod.ext ?_ ?_
  · rw [eraseFold_list (fun c => c ∈ st.safes ∨ c ∈ st.mines) (sortCells cells) cells]
    rw [sortCells_filter_toFinset cells (fun c => c ∈ st.safes ∨ c ∈ st.mines)]
    ext x
    simp only [Finset.mem_sdiff, Finset.mem_filter]
    tauto
  · rw [sortCells_countP cells (fun c => c ∉ st.safes ∧ c ∈ st.mines)]

/-!  Coverage of the bulk marking loops.  -/

theorem mSafesStep_mines (s : AIState) (a : Cell) :
    (mSafesStep s a).mines = s.mines := by
  unfold mSafesStep
  split
  · exact markSafe_mines a s
  · rfl

theorem markSafesFold_covers :
    ∀ (l : List Cell) (st : AIState), (∀ c ∈ l, c ∉ st.mines) →
      ∀ c ∈ l, c ∈ (l.foldl mSafesStep st).safes := by
  intro l
  induction l with
  | nil => intro st _ c hc; exact absurd hc (List.not_mem_nil c)
  | cons a l ih =>
    intro st hmines c hc
    simp only [List.foldl_cons]
    have hsub : (mSafesStep st a).safes ⊆ (l.foldl mSafesStep (mSafesStep st a)).safes :=
      (foldl_stateLe mSafesStep mSafesStep_le l (mSafesStep st a)).2.2.2.2.1
    rcases List.mem_cons.mp hc with rfl | hcl
    · refine hsub ?_
      unfold mSafesStep
      split
      · exact mem_markSafe_safes (hmines c (List.mem_cons_self c l))
      · next h => exact not_not.mp h
    · refine ih (mSafesStep st a) ?_ c hcl
      intro c' hc'
      rw [mSafesStep_mines]
      exact hmines c' (List.mem_cons_of_mem a hc')

/-- Cells handed to `mark_safes` that are not known mines all end up in
`safes`. -/
theorem markSafes_covers (cs : Finset Cell) (st : AIState)
    (h : ∀ c ∈ cs, c ∉ st.mines) : cs ⊆ (markSafes cs st).safes := by
  intro c hc
  exact markSafesFold_covers (sortCells cs) st
    (fun c' hc' => h c' (mem_sortCells.mp hc')) c (mem_sortCells.mpr hc)

theorem markMinesFold_covers :
    ∀ (l : List Cell) (st : AIState), ∀ c ∈ l, c ∈ (l.foldl mMinesStep st).mines := by
  intro l
  induction l with
  | nil => intro st c hc; exact absurd hc (List.not_mem_nil c)
  | cons a l ih =>
    intro st c hc
    simp only [List.foldl_cons]
    have hsub : (mMinesStep st a).mines ⊆ (l.foldl mMinesStep (mMinesStep st a)).mines :=
      (foldl_stateLe mMinesStep mMinesStep_le l (mMinesStep st a)).2.2.2.1
    rcases List.mem_cons.mp hc with rfl | hcl
    · refine hsub ?_
      unfold mMinesStep
      split
      · exact mem_markMine_mines c st
      · next h => exact not_not.mp h
    · exact ih (mMinesStep st a) c hcl

/-- Cells handed to `mark_mines` all end up in `mines`. -/
theorem markMines_covers (cs : Finset Cell) (st : AIState) :
    cs ⊆ (markMines cs st).mines := by
  intro c hc
  exact markMinesFold_covers (sortCells cs) st c (mem_sortCells.mpr hc)

/-!  Behaviour of `add_if_new`.  -/

theorem addIfNew_of_mem {s : Sentence} {st : AIState} (h : s ∈ st.knowledge) :
    addIfNew s st = st := by
  unfold addIfNew
  rw [if_neg (not_not_intro h)]

theorem addIfNew_of_not_mem {s : Sentence} {st : AIState} (h : s ∉ st.knowledge) :
    (addIfNew s st).knowledge = st.knowledge ++ [s] := by
  unfold addIfNew
  rw [if_pos h]

/-- Claim C2: for a candidate sentence, cleanup removes each known-mine
cell decrementing the count and each known-safe cell leaving the count,
then resolves immediately: remaining count 0 marks every remaining cell
safe and stores nothing; remaining cardinality equal to the remaining
count marks every remaining cell as a mine and stores nothing;
otherwise the cleaned sentence is returned and `add_if_new` appends it
exactly when no equal sentence is already present. -/
theorem claim2_cleanup (st : AIState) (cells : Finset Cell) (count : ℤ) :
    (cleanUp st cells count =
      (let t := cells.filter (fun c => c ∉ st.safes ∧ c ∉ st.mines)
       let k := count - ((cells.filter (fun c => c ∉ st.safes ∧ c ∈ st.mines)).card : ℤ)
       if t.Nonempty then
         if k = 0 then (none, markSafes t st)
         else if (t.card : ℤ) = k then (none, markMines t st)
         else (some { cells := t, count := k }, st)
       else (none, st))) ∧
    (Disjoint st.safes st.mines →
      cells.filter (fun c => c ∉ st.safes ∧ c ∈ st.mines) =
        cells.filter (fun c => c ∈ st.mines)) ∧
    (∀ t : Finset Cell, (∀ c ∈ t, c ∉ st.mines) → t ⊆ (markSafes t st).safes) ∧
    (∀ t : Finset Cell, t ⊆ (markMines t st).mines) ∧
    (∀ s : Sentence, (s ∈ st.knowledge → addIfNew s st = st) ∧
      (s ∉ st.knowledge → (addIfNew s st).knowledge = st.knowledge ++ [s])) := by
  refine ⟨?_, ?_, fun t ht => markSafes_covers t st ht, fun t => markMines_covers t st,
    fun s => ⟨fun h => addIfNew_of_mem h, fun h => addIfNew_of_not_mem h⟩⟩
  · rw [cleanUp, cleanUpFold]
    rfl
  · intro hd
    ext x
    simp only [Finset.mem_filter, and_congr_right_iff]
    intro _
    constructor
    · exact fun h => h.2
    · exact fun h => ⟨Finset.disjoint_right.mp hd h, h⟩

/-- Claim C2 witness: the hypothesis-bearing parts of the cleanup claim
evaluated on a concrete state knowing `(0,0)` safe and `(0,1)` a mine. -/
theorem claim2_witness :
    (({(0,0),(0,1),(0,2)} : Finset Cell).filter (fun c =>
        c ∉ ({ initialState 3 3 with safes := {(0,0)}, mines := {(0,1)} } : AIState).safes ∧
        c ∈ ({ initialState 3 3 with safes := {(0,0)}, mines := {(0,1)} } : AIState).mines) =
      ({(0,0),(0,1),(0,2)} : Finset Cell).filter (fun c =>
        c ∈ ({ initialState 3 3 with safes := {(0,0)}, mines := {(0,1)} } : AIState).mines)) ∧
    ({(1,2)} : Finset Cell) ⊆
      (markSafes {(1,2)} { initialState 3 3 with safes := {(0,0)}, mines := {(0,1)} }).safes ∧
    (addIfNew { cells := {(1,1)}, count := 1 }
        { initialState 3 3 with safes := {(0,0)}, mines := {(0,1)} }).knowledge =
      ({ initialState 3 3 with safes := {(0,0)}, mines := {(0,1)} } : AIState).knowledge ++
        [{ cells := {(1,1)}, count := 1 }] :=
  ⟨(claim2_cleanup _ {(0,0),(0,1),(0,2)} 2).2.1 (by decide),
   (claim2_cleanup _ ∅ 0).2.2.1 {(1,2)} (by decide),
   ((claim2_cleanup _ ∅ 0).2.2.2.2 { cells := {(1,1)}, count := 1 }).2 (by decide)⟩

/-- With exactly two stored sentences that are non-empty and distinct,
`unique_pairs` yields exactly the pair of their positions. -/
theorem uniquePairs_two {A B : Sentence} {st : AIState}
    (hknow : st.knowledge = [A, B])
    (hA : isNotEmptySentence A) (hB : isNotEmptySentence B)
    (hAB : A ≠ B) : uniquePairs st = [(0, 1)] := by
  unfold uniquePairs
  rw [hknow]
  dsimp only
  have hr : List.range ([A, B].length) = [0, 1] := rfl
  rw [hr]
  have g0 : [A, B].getD 0 emptySentence = A := rfl
  have g1 : [A, B].getD 1 emptySentence = B := rfl
  simp [List.filter, List.product, g0, g1, hA, hB, hAB]

/-- Claim C1: across an arbitrary knowledge base, `unique_pairs`
consists of exactly the ordered position pairs of distinct, non-empty,
non-equal stored sentences (first conjunct); for every such pair the
loop body, reading the sentences currently stored at the two positions,
derives `cells = B.cells - A.cells`, `count = B.count - A.count` when
`A.cells` is a strict subset of `B.cells`, symmetrically when `B.cells`
is a strict subset of `A.cells`, runs cleanup-and-immediate-resolution
on the derived sentence and inserts it only if no equal sentence is
present (the `storeResult`/`cleanUp` composition), and leaves the state
unchanged when neither inclusion holds (second conjunct); the engine's
inference step folds this body over exactly those pairs (third
conjunct); in particular from `A = {a,b} = 1` and `B = {a,b,c} = 2` the
cell `c` is immediately marked as a mine (fourth conjunct). -/
theorem claim1_inference_pair :
    (∀ (st : AIState) (i j : ℕ), (i, j) ∈ uniquePairs st ↔
      (i < j ∧ j < st.knowledge.length ∧
       isNotEmptySentence (st.knowledge.getD i emptySentence) ∧
       isNotEmptySentence (st.knowledge.getD j emptySentence) ∧
       st.knowledge.getD i emptySentence ≠ st.knowledge.getD j emptySentence)) ∧
    (∀ (st : AIState) (i j : ℕ),
      ((st.knowledge.getD i emptySentence).cells ⊂
          (st.knowledge.getD j emptySentence).cells →
        aISbody st (i, j) = storeResult (cleanUp st
          ((st.knowledge.getD j emptySentence).cells \
            (st.knowledge.getD i emptySentence).cells)
          ((st.knowledge.getD j emptySentence).count -
            (st.knowledge.getD i emptySentence).count))) ∧
      ((st.knowledge.getD j emptySentence).cells ⊂
          (st.knowledge.getD i emptySentence).cells →
        aISbody st (i, j) = storeResult (cleanUp st
          ((st.knowledge.getD i emptySentence).cells \
            (st.knowledge.getD j emptySentence).cells)
          ((st.knowledge.getD i emptySentence).count -
            (st.knowledge.getD j emptySentence).count))) ∧
      (¬ (st.knowledge.getD i emptySentence).cells ⊂
          (st.knowledge.getD j emptySentence).cells →
       ¬ (st.knowledge.getD j emptySentence).cells ⊂
          (st.knowledge.getD i emptySentence).cells →
        aISbody st (i, j) = st)) ∧
    (∀ st : AIState, addInferredSentence st = (uniquePairs st).foldl aISbody st) ∧
    (0,2) ∈ (addInferredSentence pairExampleState).mines := by
  refine ⟨?_, ?_, fun st => rfl, by decide⟩
  · intro st i j
    unfold uniquePairs
    dsimp only
    constructor
    · intro h
      obtain ⟨hprod, hcond⟩ := List.mem_filter.mp h
      obtain ⟨hi, hj⟩ := List.pair_mem_product.mp hprod
      obtain ⟨hir, hiNE⟩ := List.mem_filter.mp hi
      obtain ⟨hjr, hjNE⟩ := List.mem_filter.mp hj
      obtain ⟨hlt, hne⟩ := of_decide_eq_true hcond
      exact ⟨hlt, List.mem_range.mp hjr, of_decide_eq_true hiNE,
        of_decide_eq_true hjNE, hne⟩
    · rintro ⟨hlt, hjlen, hiNE, hjNE, hne⟩
      refine List.mem_filter.mpr ⟨?_, decide_eq_true ⟨hlt, hne⟩⟩
      refine List.pair_mem_product.mpr ⟨?_, ?_⟩
      · exact List.mem_filter.mpr
          ⟨List.mem_range.mpr (Nat.lt_trans hlt hjlen), decide_eq_true hiNE⟩
      · exact List.mem_filter.mpr
          ⟨List.mem_range.mpr hjlen, decide_eq_true hjNE⟩
  · intro st i j
    refine ⟨?_, ?_, ?_⟩
    · intro h
      unfold aISbody aIScore
      dsimp only
      rw [if_pos h]
    · intro h
      unfold aISbody aIScore
      dsimp only
      rw [if_neg (fun h2 => (Finset.ssubset_def.mp h).2 h2.subset), if_pos h]
    · intro h1 h2
      unfold aISbody aIScore
      dsimp only
      rw [if_neg h1, if_neg h2]

/-- Claim C1 witness: the pair-membership characterisation and all
three branch equations applied at concrete states — the spec example,
its reversal (symmetric branch), and an incomparable pair. -/
theorem claim1_witness :
    (0, 1) ∈ uniquePairs pairExampleState ∧
    aISbody pairExampleState (0, 1) = storeResult (cleanUp pairExampleState
      (({(0,0),(0,1),(0,2)} : Finset Cell) \ {(0,0),(0,1)}) (2 - 1)) ∧
    aISbody pairExampleStateRev (0, 1) = storeResult (cleanUp pairExampleStateRev
      (({(0,0),(0,1),(0,2)} : Finset Cell) \ {(0,0),(0,1)}) (2 - 1)) ∧
    aISbody pairExampleStateInc (0, 1) = pairExampleStateInc :=
  ⟨(claim1_inference_pair.1 pairExampleState 0 1).mpr (by decide),
   (claim1_inference_pair.2.1 pairExampleState 0 1).1 (by decide),
   (claim1_inference_pair.2.1 pairExampleStateRev 0 1).2.1 (by decide),
   (claim1_inference_pair.2.1 pairExampleStateInc 0 1).2.2 (by decide) (by decide)⟩

/-- Claim C10: across every sequence of public operations that returns,
`safes`, `mines` and `moves_made` grow monotonically: no cell is ever
removed from any of the three sets. -/
theorem claim10_monotone (ops : List AIOp) (st st' : AIState)
    (h : runOps ops st = some st') :
    st.safes ⊆ st'.safes ∧ st.mines ⊆ st'.mines ∧
    st.movesMade ⊆ st'.movesMade := by
  have hle := runOps_le ops st st' h
  exact ⟨hle.2.2.2.2.1, hle.2.2.2.1, hle.2.2.1⟩

/-- Claim C10 witness: the monotonicity theorem applied to a concrete
run of a mark and an observe. -/
theorem claim10_witness :
    ∃ st' : AIState,
      runOps [AIOp.safe (2,2), AIOp.observe (1,1) 1 20] (initialState 3 3)
        = some st' ∧
      ((initialState 3 3).safes ⊆ st'.safes ∧
       (initialState 3 3).mines ⊆ st'.mines ∧
       (initialState 3 3).movesMade ⊆ st'.movesMade) := by
  have hs : (runOps [AIOp.safe (2,2), AIOp.observe (1,1) 1 20]
      (initialState 3 3)).isSome = true := by decide
  obtain ⟨st', hst⟩ := Option.isSome_iff_exists.mp hs
  exact ⟨st', hst, claim10_monotone _ _ _ hst⟩

/-- Positions produced by `unique_pairs` always point at sentences that
are not the empty sentence (at the time the pair list is built). -/
theorem uniquePairs_not_empty (st : AIState) (i j : ℕ)
    (h : (i, j) ∈ uniquePairs st) :
    st.knowledge.getD i emptySentence ≠ emptySentence ∧
    st.knowledge.getD j emptySentence ≠ emptySentence := by
  unfold uniquePairs at h
  dsimp only at h
  have h1 := (List.mem_filter.mp h).1
  have hi := (List.pair_mem_product.mp h1).1
  have hj := (List.pair_mem_product.mp h1).2
  have hi2 := (List.mem_filter.mp hi).2
  have hj2 := (List.mem_filter.mp hj).2
  exact ⟨of_decide_eq_true hi2, of_decide_eq_true hj2⟩

/-- Claim C6 amended: sentences are never removed from `knowledge` (the
list length is monotone across every public operation, and a resolved
sentence is retained as the degenerate empty sentence, see the
counterexample); what the engine does instead is exclude empty
sentences from pairwise inference: both members of every processed pair
are non-empty when the pair list is built. -/
theorem claim6_amended :
    (∀ (st : AIState) (i j : ℕ), (i, j) ∈ uniquePairs st →
      st.knowledge.getD i emptySentence ≠ emptySentence ∧
      st.knowledge.getD j emptySentence ≠ emptySentence) ∧
    (∀ (ops : List AIOp) (st st' : AIState), runOps ops st = some st' →
      st.knowledge.length ≤ st'.knowledge.length) :=
  ⟨uniquePairs_not_empty,
   fun ops st st' h => (runOps_le ops st st' h).2.2.2.2.2⟩

/-- Claim C6 amended witness: the pair filter applied to the concrete
two-sentence example state, and length monotonicity on a concrete run. -/
theorem claim6_witness :
    (pairExampleState.knowledge.getD 0 emptySentence ≠ emptySentence ∧
     pairExampleState.knowledge.getD 1 emptySentence ≠ emptySentence) ∧
    (initialState 3 3).knowledge.length ≤
      (markSafe (0,0) (initialState 3 3)).knowledge.length :=
  ⟨claim6_amended.1 pairExampleState 0 1 (by decide),
   claim6_amended.2 [AIOp.safe (0,0)] (initialState 3 3)
     (markSafe (0,0) (initialState 3 3)) rfl⟩

/-!  Preservation of cleanliness: stored sentences never mention a cell
of `safes` or `mines`.  -/

theorem foldl_pres {α : Type} (P : AIState → Prop) (f : AIState → α → AIState)
    (hstep : ∀ st x, P st → P (f st x)) :
    ∀ (l : List α) (st : AIState), P st → P (l.foldl f st) := by
  intro l
  induction l with
  | nil => exact fun st h => h
  | cons x l ih => exact fun st h => ih (f st x) (hstep st x h)

theorem sentMarkSafe_mem {c c' : Cell} {s : Sentence}
    (h : c' ∈ (Sentence.markSafe c s).cells) : c' ≠ c ∧ c' ∈ s.cells := by
  unfold Sentence.markSafe at h
  split at h
  · exact ⟨(Finset.mem_erase.mp h).1, (Finset.mem_erase.mp h).2⟩
  · next hc =>
    exact ⟨fun he => hc (he ▸ h), h⟩

theorem sentMarkMine_mem {c c' : Cell} {s : Sentence}
    (h : c' ∈ (Sentence.markMine c s).cells) : c' ≠ c ∧ c' ∈ s.cells := by
  unfold Sentence.markMine at h
  split at h
  · exact ⟨(Finset.mem_erase.mp h).1, (Finset.mem_erase.mp h).2⟩
  · next hc =>
    exact ⟨fun he => hc (he ▸ h), h⟩

theorem markSafe_KClean {c : Cell} {st : AIState} (h : KClean st) :
    KClean (markSafe c st) := by
  unfold markSafe
  split
  · intro s' hs' c' hc'
    obtain ⟨s, hs, rfl⟩ := List.mem_map.mp hs'
    obtain ⟨hne, hmem⟩ := sentMarkSafe_mem hc'
    obtain ⟨hnsafe, hnmine⟩ := h s hs c' hmem
    refine ⟨?_, hnmine⟩
    intro hin
    rcases Finset.mem_insert.mp hin with he | ho
    · exact hne he
    · exact hnsafe ho
  · exact h

theorem markMine_KClean {c : Cell} {st : AIState} (h : KClean st) :
    KClean (markMine c st) := by
  unfold markMine
  split
  · intro s' hs' c' hc'
    obtain ⟨s, hs, rfl⟩ := List.mem_map.mp hs'
    obtain ⟨hne, hmem⟩ := sentMarkMine_mem hc'
    obtain ⟨hnsafe, hnmine⟩ := h s hs c' hmem
    refine ⟨hnsafe, ?_⟩
    intro hin
    rcases Finset.mem_insert.mp hin with he | ho
    · exact hne he
    · exact hnmine ho
  · exact h

theorem markSafes_KClean (cs : Finset Cell) {st : AIState} (h : KClean st) :
    KClean (markSafes cs st) := by
  refine foldl_pres KClean mSafesStep ?_ (sortCells cs) st h
  intro s a ha
  unfold mSafesStep
  split
  · exact markSafe_KClean ha
  · exact ha

theorem markMines_KClean (cs : Finset Cell) {st : AIState} (h : KClean st) :
    KClean (markMines cs st) := by
  refine foldl_pres KClean mMinesStep ?_ (sortCells cs) st h
  intro s m hm
  unfold mMinesStep
  split
  · exact markMine_KClean hm
  · exact hm

theorem addIfNew_KClean {s : Sentence} {st : AIState}
    (hcl : ∀ c ∈ s.cells, c ∉ st.safes ∧ c ∉ st.mines) (h : KClean st) :
    KClean (addIfNew s st) := by
  unfold addIfNew
  split
  · intro s' hs' c' hc'
    rcases List.mem_append.mp hs' with ho | hn
    · exact h s' ho c' hc'
    · have : s' = s := by
        cases List.mem_singleton.mp hn
        rfl
      exact this ▸ hcl c' (this ▸ hc')
  · exact h

theorem storeResult_cleanUp_KClean (st : AIState) (cells : Finset Cell)
    (count : ℤ) (h : KClean st) :
    KClean (storeResult (cleanUp st cells count)) := by
  rw [cleanUp, cleanUpFold]
  unfold cleanUpCore
  split_ifs with h1 h2 h3
  · exact markSafes_KClean _ h
  · exact markMines_KClean _ h
  · refine addIfNew_KClean ?_ h
    intro c hc
    exact (Finset.mem_filter.mp hc).2
  · exact h

theorem mACbody_KClean (s : Sentence) {st : AIState} (h : KClean st) :
    KClean (mACbody s st) := by
  unfold mACbody
  split
  · exact markMines_KClean _ h
  · split
    · exact markSafes_KClean _ h
    · exact h

theorem mACgo_KClean : ∀ (fuel i : ℕ) {st : AIState}, KClean st →
    KClean (mACgo fuel i st) := by
  intro fuel
  induction fuel with
  | zero => exact fun i _ h => h
  | succ n ih =>
    intro i st h
    unfold mACgo
    split
    · next s _ => exact ih (i + 1) (mACbody_KClean s h)
    · exact h

theorem markAdditionalCells_KClean {st : AIState} (h : KClean st) :
    KClean (markAdditionalCells st) :=
  mACgo_KClean _ 0 h

theorem aISbody_KClean {st : AIState} (p : ℕ × ℕ) (h : KClean st) :
    KClean (aISbody st p) := by
  unfold aISbody aIScore
  split
  · exact storeResult_cleanUp_KClean st _ _ h
  · split
    · exact storeResult_cleanUp_KClean st _ _ h
    · exact h

theorem addInferredSentence_KClean {st : AIState} (h : KClean st) :
    KClean (addInferredSentence st) :=
  foldl_pres KClean aISbody (fun st p hp => aISbody_KClean p hp) (uniquePairs st) st h

theorem deducePass_KClean {st : AIState} (h : KClean st) :
    KClean (deducePass st) :=
  addInferredSentence_KClean (markAdditionalCells_KClean h)

theorem deduceLoop_KClean : ∀ (fuel : ℕ) {st st' : AIState},
    deduceLoop fuel st = some st' → KClean st → KClean st' := by
  intro fuel
  induction fuel with
  | zero =>
    intro st st' hrun h
    unfold deduceLoop at hrun
    split at hrun
    · exact absurd hrun (by simp)
    · exact (Option.some_inj.mp hrun) ▸ h
  | succ n ih =>
    intro st st' hrun h
    unfold deduceLoop at hrun
    split at hrun
    · exact ih hrun (deducePass_KClean h)
    · exact (Option.some_inj.mp hrun) ▸ h

theorem addKnowledge_KClean {fuel : ℕ} {cell : Cell} {count : ℤ}
    {st st' : AIState} (hrun : addKnowledge fuel cell count st = some st')
    (h : KClean st) : KClean st' := by
  unfold addKnowledge at hrun
  refine deduceLoop_KClean _ hrun ?_
  refine addInferredSentence_KClean (markAdditionalCells_KClean ?_)
  unfold addNewSentence
  refine storeResult_cleanUp_KClean _ _ _ ?_
  exact markSafe_KClean h

theorem applyOp_KClean {op : AIOp} {st st' : AIState}
    (hrun : applyOp op st = some st') (h : KClean st) : KClean st' := by
  cases op with
  | observe cell count fuel => exact addKnowledge_KClean hrun h
  | mine cell => exact (Option.some_inj.mp hrun) ▸ markMine_KClean h
  | safe cell => exact (Option.some_inj.mp hrun) ▸ markSafe_KClean h
  | safeMove => exact (Option.some_inj.mp hrun) ▸ h
  | randomMove => exact (Option.some_inj.mp hrun) ▸ h

theorem runOps_KClean : ∀ (ops : List AIOp) {st st' : AIState},
    runOps ops st = some st' → KClean st → KClean st' := by
  intro ops
  induction ops with
  | nil =>
    intro st st' hrun h
    exact (Option.some_inj.mp hrun) ▸ h
  | cons op rest ih =>
    intro st st' hrun h
    unfold runOps at hrun
    rcases ho : applyOp op st with _ | st1
    · rw [ho] at hrun
      exact absurd hrun (by simp)
    · rw [ho] at hrun
      simp only [Option.some_bind] at hrun
      exact ih hrun (applyOp_KClean ho h)

/-- Claim C5 amended: at every observable point of every run the
resolved-cell part of the sentence invariant holds (no cell of any
stored sentence belongs to `safes` or `mines`), but the count bounds
`0 <= count <= |cells|` do not hold in general: with inconsistent (yet
individually in-range) clues the engine stores sentences with negative
or oversized counts (see the counterexample). -/
theorem claim5_amended (ops : List AIOp) (st st' : AIState)
    (hrun : runOps ops st = some st') (h : KClean st) : KClean st' :=
  runOps_KClean ops hrun h

/-- Claim C5 amended witness: cleanliness after a concrete run from the
fresh state. -/
theorem claim5_witness :
    ∃ st' : AIState,
      runOps [AIOp.observe (1,1) 1 20, AIOp.mine (0,0)] (initialState 3 3)
        = some st' ∧ KClean st' := by
  have hs : (runOps [AIOp.observe (1,1) 1 20, AIOp.mine (0,0)]
      (initialState 3 3)).isSome = true := by decide
  obtain ⟨st', hst⟩ := Option.isSome_iff_exists.mp hs
  exact ⟨st', hst, claim5_amended _ _ _ hst (by decide)⟩

/-!  Progress relation basics.  -/

theorem prog_refl (st : AIState) : Prog st st :=
  ⟨rfl, rfl, Nat.le_refl _, fun h => Or.inl h⟩

theorem prog_trans {a b c : AIState} (h1 : Prog a b) (h2 : Prog b c) : Prog a c := by
  refine ⟨h2.1.trans h1.1, h2.2.1.trans h1.2.1, h2.2.2.1.trans h1.2.2.1, ?_⟩
  intro hc
  rcases h2.2.2.2 hc with hb | hlt
  · rcases h1.2.2.2 hb with ha | hlt1
    · exact Or.inl ha
    · exact Or.inr (Nat.lt_of_le_of_lt h2.2.2.1 hlt1)
  · exact Or.inr (Nat.lt_of_lt_of_le hlt h1.2.2.1)

theorem prog_of_strict {st st' : AIState} (hh : st'.height = st.height)
    (hw : st'.width = st.width) (hlt : potential st' < potential st) :
    Prog st st' :=
  ⟨hh, hw, Nat.le_of_lt hlt, fun _ => Or.inr hlt⟩

theorem kbMissing_le (st : AIState) :
    kbMissing st ≤ (sentSpace st.height st.width).card :=
  Finset.card_le_card Finset.sdiff_subset

theorem potential_lt_of_mark {st st' : AIState} {c : Cell}
    (hh : st'.height = st.height) (hw : st'.width = st.width)
    (hsm : st'.safes ∪ st'.mines = insert c (st.safes ∪ st.mines))
    (hgrid : c ∈ allPossibleMoves st.height st.width)
    (hc : c ∉ st.safes ∪ st.mines) :
    potential st' < potential st := by
  have hB : kbMissing st' ≤ (sentSpace st.height st.width).card := by
    have := kbMissing_le st'
    rw [hh, hw] at this
    exact this
  have hu : unmarkedCount st' + 1 = unmarkedCount st := by
    unfold unmarkedCount
    rw [hh, hw, hsm, Finset.sdiff_insert]
    have hmem : c ∈ allPossibleMoves st.height st.width \ (st.safes ∪ st.mines) :=
      Finset.mem_sdiff.mpr ⟨hgrid, hc⟩
    rw [Finset.card_erase_of_mem hmem]
    have hpos : 0 < (allPossibleMoves st.height st.width \ (st.safes ∪ st.mines)).card :=
      Finset.card_pos.mpr ⟨c, hmem⟩
    omega
  unfold potential
  rw [hh, hw]
  set B := (sentSpace st.height st.width).card with hBdef
  set u' := unmarkedCount st' with hu'
  rw [← hu]
  have hexp : (u' + 1) * (B + 1) = u' * (B + 1) + (B + 1) := by ring
  rw [hexp]
  have hk := kbMissing st'
  omega

theorem markSafe_strict {c : Cell} {st : AIState}
    (hgrid : c ∈ allPossibleMoves st.height st.width)
    (hcs : c ∉ st.safes) (hcm : c ∉ st.mines) :
    potential (markSafe c st) < potential st := by
  refine potential_lt_of_mark (markSafe_height c st) (markSafe_width c st) ?_ hgrid ?_
  · rw [markSafe_mines]
    unfold markSafe
    rw [if_pos hcm]
    rw [Finset.insert_union]
  · exact fun h => (Finset.mem_union.mp h).elim hcs hcm

theorem markMine_strict {c : Cell} {st : AIState}
    (hgrid : c ∈ allPossibleMoves st.height st.width)
    (hcs : c ∉ st.safes) (hcm : c ∉ st.mines) :
    potential (markMine c st) < potential st := by
  refine potential_lt_of_mark (markMine_height c st) (markMine_width c st) ?_ hgrid ?_
  · rw [markMine_safes]
    unfold markMine
    rw [if_pos hcm]
    rw [Finset.union_insert]
  · exact fun h => (Finset.mem_union.mp h).elim hcs hcm

/-!  Truth of sentences under the reduction operations.  -/

theorem TrueSent_sentMarkSafe {M : Finset Cell} {c : Cell} {s : Sentence}
    (hcM : c ∉ M) (h : TrueSent M s) : TrueSent M (Sentence.markSafe c s) := by
  unfold Sentence.markSafe
  split
  · unfold TrueSent at h ⊢
    have he : s.cells.erase c ∩ M = s.cells ∩ M := by
      ext x
      simp only [Finset.mem_inter, Finset.mem_erase]
      constructor
      · exact fun hx => ⟨hx.1.2, hx.2⟩
      · intro hx
        exact ⟨⟨fun hxc => hcM (hxc ▸ hx.2), hx.1⟩, hx.2⟩
    simpa [he] using h
  · exact h

theorem TrueSent_sentMarkMine {M : Finset Cell} {c : Cell} {s : Sentence}
    (hcM : c ∈ M) (h : TrueSent M s) : TrueSent M (Sentence.markMine c s) := by
  unfold Sentence.markMine
  split
  · next hcs =>
    unfold TrueSent at h ⊢
    have he : s.cells.erase c ∩ M = (s.cells ∩ M).erase c := by
      ext x
      simp only [Finset.mem_inter, Finset.mem_erase]
      tauto
    have hmem : c ∈ s.cells ∩ M := Finset.mem_inter.mpr ⟨hcs, hcM⟩
    have hcard : (s.cells ∩ M).card ≠ 0 := by
      intro h0
      rw [Finset.card_eq_zero] at h0
      rw [h0] at hmem
      exact absurd hmem (Finset.not_mem_empty c)
    rw [he, Finset.card_erase_of_mem hmem]
    rw [← h]
    have : 0 < (s.cells ∩ M).card := Nat.pos_of_ne_zero hcard
    push_cast [Nat.cast_sub (Nat.one_le_iff_ne_zero.mpr hcard)]
    ring
  · exact h

/-!  Preservation of consistency by the marking primitives.  -/

theorem markSafe_consistent {M : Finset Cell} {c : Cell} {st : AIState}
    (hM : Consistent M st) (hcM : c ∉ M) : Consistent M (markSafe c st) := by
  obtain ⟨hMg, hmines, hsafes, hsent, hclean⟩ := hM
  refine ⟨?_, ?_, ?_, ?_, markSafe_KClean hclean⟩
  · rw [markSafe_height, markSafe_width]
    exact hMg
  · rw [markSafe_mines]
    exact hmines
  · unfold markSafe
    split
    · intro c' hc'
      rcases Finset.mem_insert.mp hc' with rfl | ho
      · exact hcM
      · exact hsafes c' ho
    · exact hsafes
  · rw [markSafe_height, markSafe_width]
    unfold markSafe
    split
    · intro s' hs'
      obtain ⟨s, hs, rfl⟩ := List.mem_map.mp hs'
      obtain ⟨ht, hg⟩ := hsent s hs
      refine ⟨TrueSent_sentMarkSafe hcM ht, ?_⟩
      intro x hx
      exact hg ((sentMarkSafe_mem hx).2)
    · exact hsent

theorem markMine_consistent {M : Finset Cell} {c : Cell} {st : AIState}
    (hM : Consistent M st) (hcM : c ∈ M) : Consistent M (markMine c st) := by
  obtain ⟨hMg, hmines, hsafes, hsent, hclean⟩ := hM
  refine ⟨?_, ?_, ?_, ?_, markMine_KClean hclean⟩
  · rw [markMine_height, markMine_width]
    exact hMg
  · unfold markMine
    split
    · intro c' hc'
      rcases Finset.mem_insert.mp hc' with rfl | ho
      · exact hcM
      · exact hmines ho
    · exact hmines
  · rw [markMine_safes]
    exact hsafes
  · rw [markMine_height, markMine_width]
    unfold markMine
    split
    · intro s' hs'
      obtain ⟨s, hs, rfl⟩ := List.mem_map.mp hs'
      obtain ⟨ht, hg⟩ := hsent s hs
      refine ⟨TrueSent_sentMarkMine hcM ht, ?_⟩
      intro x hx
      exact hg ((sentMarkMine_mem hx).2)
    · exact hsent

/-!  Consistency and progress through the bulk marking loops.  -/

theorem markSafesFold_ok {M : Finset Cell} :
    ∀ (l : List Cell) (st : AIState), Consistent M st →
      (∀ c ∈ l, c ∉ M ∧ c ∈ allPossibleMoves st.height st.width) →
      Consistent M (l.foldl mSafesStep st) ∧ Prog st (l.foldl mSafesStep st) ∧
      ((∃ c ∈ l, c ∉ st.safes) → potential (l.foldl mSafesStep st) < potential st) := by
  intro l
  induction l with
  | nil =>
    intro st hM _
    refine ⟨hM, prog_refl st, ?_⟩
    rintro ⟨c, hc, _⟩
    exact absurd hc (List.not_mem_nil c)
  | cons a l ih =>
    intro st hM hl
    obtain ⟨haM, haG⟩ := hl a (List.mem_cons_self a l)
    have hamine : a ∉ st.mines := fun h => haM (hM.2.1 h)
    simp only [List.foldl_cons]
    by_cases ha : a ∉ st.safes
    · have hstep : mSafesStep st a = markSafe a st := by
        unfold mSafesStep
        rw [if_pos ha]
      rw [hstep]
      have hC1 : Consistent M (markSafe a st) := markSafe_consistent hM haM
      have hstrict1 : potential (markSafe a st) < potential st :=
        markSafe_strict haG ha hamine
      have hIH := ih (markSafe a st) hC1 (by
        intro c hc
        refine ⟨(hl c (List.mem_cons_of_mem a hc)).1, ?_⟩
        rw [markSafe_height, markSafe_width]
        exact (hl c (List.mem_cons_of_mem a hc)).2)
      refine ⟨hIH.1, ?_, ?_⟩
      · exact prog_trans (prog_of_strict (markSafe_height a st)
          (markSafe_width a st) hstrict1) hIH.2.1
      · intro _
        exact Nat.lt_of_le_of_lt hIH.2.1.2.2.1 hstrict1
    · have hstep : mSafesStep st a = st := by
        unfold mSafesStep
        rw [if_neg ha]
      rw [hstep]
      have hIH := ih st hM (fun c hc => hl c (List.mem_cons_of_mem a hc))
      refine ⟨hIH.1, hIH.2.1, ?_⟩
      rintro ⟨c, hc, hcs⟩
      rcases List.mem_cons.mp hc with rfl | hcl
      · exact absurd (not_not.mp ha) hcs
      · exact hIH.2.2 ⟨c, hcl, hcs⟩

theorem markMinesFold_ok {M : Finset Cell} :
    ∀ (l : List Cell) (st : AIState), Consistent M st →
      (∀ c ∈ l, c ∈ M) →
      Consistent M (l.foldl mMinesStep st) ∧ Prog st (l.foldl mMinesStep st) ∧
      ((∃ c ∈ l, c ∉ st.mines) → potential (l.foldl mMinesStep st) < potential st) := by
  intro l
  induction l with
  | nil =>
    intro st hM _
    refine ⟨hM, prog_refl st, ?_⟩
    rintro ⟨c, hc, _⟩
    exact absurd hc (List.not_mem_nil c)
  | cons a l ih =>
    intro st hM hl
    have haM : a ∈ M := hl a (List.mem_cons_self a l)
    have haG : a ∈ allPossibleMoves st.height st.width := hM.1 haM
    have hasafe : a ∉ st.safes := fun h => hM.2.2.1 a h haM
    simp only [List.foldl_cons]
    by_cases ha : a ∉ st.mines
    · have hstep : mMinesStep st a = markMine a st := by
        unfold mMinesStep
        rw [if_pos ha]
      rw [hstep]
      have hC1 : Consistent M (markMine a st) := markMine_consistent hM haM
      have hstrict1 : potential (markMine a st) < potential st :=
        markMine_strict haG hasafe ha
      have hIH := ih (markMine a st) hC1
        (fun c hc => hl c (List.mem_cons_of_mem a hc))
      refine ⟨hIH.1, ?_, ?_⟩
      · exact prog_trans (prog_of_strict (markMine_height a st)
          (markMine_width a st) hstrict1) hIH.2.1
      · intro _
        exact Nat.lt_of_le_of_lt hIH.2.1.2.2.1 hstrict1
    · have hstep : mMinesStep st a = st := by
        unfold mMinesStep
        rw [if_neg ha]
      rw [hstep]
      have hIH := ih st hM (fun c hc => hl c (List.mem_cons_of_mem a hc))
      refine ⟨hIH.1, hIH.2.1, ?_⟩
      rintro ⟨c, hc, hcm⟩
      rcases List.mem_cons.mp hc with rfl | hcl
      · exact absurd (not_not.mp ha) hcm
      · exact hIH.2.2 ⟨c, hcl, hcm⟩

theorem markSafes_ok {M : Finset Cell} {cs : Finset Cell} {st : AIState}
    (hM : Consistent M st)
    (h : ∀ c ∈ cs, c ∉ M ∧ c ∈ allPossibleMoves st.height st.width) :
    Consistent M (markSafes cs st) ∧ Prog st (markSafes cs st) ∧
    ((∃ c ∈ cs, c ∉ st.safes) → potential (markSafes cs st) < potential st) := by
  have hres := markSafesFold_ok (sortCells cs) st hM
    (fun c hc => h c (mem_sortCells.mp hc))
  refine ⟨hres.1, hres.2.1, ?_⟩
  rintro ⟨c, hc, hcs⟩
  exact hres.2.2 ⟨c, mem_sortCells.mpr hc, hcs⟩

theorem markMines_ok {M : Finset Cell} {cs : Finset Cell} {st : AIState}
    (hM : Consistent M st) (h : ∀ c ∈ cs, c ∈ M) :
    Consistent M (markMines cs st) ∧ Prog st (markMines cs st) ∧
    ((∃ c ∈ cs, c ∉ st.mines) → potential (markMines cs st) < potential st) := by
  have hres := markMinesFold_ok (sortCells cs) st hM
    (fun c hc => h c (mem_sortCells.mp hc))
  refine ⟨hres.1, hres.2.1, ?_⟩
  rintro ⟨c, hc, hcm⟩
  exact hres.2.2 ⟨c, mem_sortCells.mpr hc, hcm⟩

/-!  Storing a new sentence: membership in the sentence space and
progress.  -/

theorem mem_sentSpace {M : Finset Cell} {s : Sentence} {h w : ℕ}
    (hM : M ⊆ allPossibleMoves h w) (ht : TrueSent M s)
    (hg : s.cells ⊆ allPossibleMoves h w) : s ∈ sentSpace h w := by
  unfold sentSpace
  rw [Finset.mem_image]
  refine ⟨(s.cells, (s.cells ∩ M).card), ?_, ?_⟩
  · rw [Finset.mem_product]
    refine ⟨Finset.mem_powerset.mpr hg, ?_⟩
    rw [Finset.mem_range]
    have h1 : (s.cells ∩ M).card ≤ s.cells.card :=
      Finset.card_le_card Finset.inter_subset_left
    have h2 : s.cells.card ≤ (allPossibleMoves h w).card :=
      Finset.card_le_card hg
    omega
  · cases s with
    | mk cells count =>
      unfold TrueSent at ht
      simp only [Sentence.mk.injEq]
      exact ⟨trivial, ht⟩

theorem addIfNew_safes (s : Sentence) (st : AIState) :
    (addIfNew s st).safes = st.safes := by
  unfold addIfNew
  split <;> rfl

theorem addIfNew_mines (s : Sentence) (st : AIState) :
    (addIfNew s st).mines = st.mines := by
  unfold addIfNew
  split <;> rfl

theorem addIfNew_height (s : Sentence) (st : AIState) :
    (addIfNew s st).height = st.height := by
  unfold addIfNew
  split <;> rfl

theorem addIfNew_width (s : Sentence) (st : AIState) :
    (addIfNew s st).width = st.width := by
  unfold addIfNew
  split <;> rfl

theorem addIfNew_pot_strict {s : Sentence} {st : AIState}
    (hmem : s ∉ st.knowledge) (hspace : s ∈ sentSpace st.height st.width) :
    potential (addIfNew s st) < potential st := by
  have hu : unmarkedCount (addIfNew s st) = unmarkedCount st := by
    unfold unmarkedCount
    rw [addIfNew_height, addIfNew_width, addIfNew_safes, addIfNew_mines]
  have hkb : kbMissing (addIfNew s st) + 1 = kbMissing st := by
    unfold kbMissing
    rw [addIfNew_height, addIfNew_width, addIfNew_of_not_mem hmem]
    have htf : (st.knowledge ++ [s]).toFinset = insert s st.knowledge.toFinset := by
      ext x
      simp [List.mem_toFinset, or_comm]
    rw [htf, Finset.sdiff_insert]
    have hmem2 : s ∈ sentSpace st.height st.width \ st.knowledge.toFinset :=
      Finset.mem_sdiff.mpr ⟨hspace, fun h => hmem (List.mem_toFinset.mp h)⟩
    rw [Finset.card_erase_of_mem hmem2]
    have hpos : 0 < (sentSpace st.height st.width \ st.knowledge.toFinset).card :=
      Finset.card_pos.mpr ⟨s, hmem2⟩
    omega
  unfold potential
  rw [hu, addIfNew_height, addIfNew_width]
  omega

theorem addIfNew_ok {M : Finset Cell} {s : Sentence} {st : AIState}
    (hM : Consistent M st) (ht : TrueSent M s)
    (hg : s.cells ⊆ allPossibleMoves st.height st.width)
    (hcl : ∀ c ∈ s.cells, c ∉ st.safes ∧ c ∉ st.mines) :
    Consistent M (addIfNew s st) ∧ Prog st (addIfNew s st) := by
  by_cases hmem : s ∈ st.knowledge
  · rw [addIfNew_of_mem hmem]
    exact ⟨hM, prog_refl st⟩
  · obtain ⟨hMg, hmines, hsafes, hsent, hclean⟩ := hM
    constructor
    · refine ⟨?_, ?_, ?_, ?_, addIfNew_KClean hcl hclean⟩
      · rw [addIfNew_height, addIfNew_width]
        exact hMg
      · rw [addIfNew_mines]
        exact hmines
      · rw [addIfNew_safes]
        exact hsafes
      · rw [addIfNew_height, addIfNew_width, addIfNew_of_not_mem hmem]
        intro s' hs'
        rcases List.mem_append.mp hs' with ho | hn
        · exact hsent s' ho
        · cases List.mem_singleton.mp hn
          exact ⟨ht, hg⟩
    · exact prog_of_strict (addIfNew_height s st) (addIfNew_width s st)
        (addIfNew_pot_strict hmem (mem_sentSpace hMg ht hg))

theorem cleanUp_ok {M : Finset Cell} {st : AIState} {cells : Finset Cell} {count : ℤ}
    (hM : Consistent M st)
    (ht : TrueSent M { cells := cells, count := count })
    (hg : cells ⊆ allPossibleMoves st.height st.width) :
    Consistent M (cleanUp st cells count).2 ∧ Prog st (cleanUp st cells count).2 ∧
    ∀ s, (cleanUp st cells count).1 = some s →
      (cleanUp st cells count).2 = st ∧ TrueSent M s ∧
      s.cells ⊆ allPossibleMoves st.height st.width ∧
      (∀ c ∈ s.cells, c ∉ st.safes ∧ c ∉ st.mines) := by
  have hsafesM : ∀ c ∈ st.safes, c ∉ M := hM.2.2.1
  have hminesM : st.mines ⊆ M := hM.2.1
  rw [cleanUp, cleanUpFold]
  unfold cleanUpCore
  set t := cells.filter (fun c => c ∉ st.safes ∧ c ∉ st.mines) with hT
  set k := count - ((cells.filter (fun c => c ∉ st.safes ∧ c ∈ st.mines)).card : ℤ) with hK
  have htclean : ∀ c ∈ t, c ∉ st.safes ∧ c ∉ st.mines := by
    intro c hc
    exact (Finset.mem_filter.mp hc).2
  have htg : t ⊆ allPossibleMoves st.height st.width :=
    (Finset.filter_subset _ cells).trans hg
  have htM : t ∩ M = (cells ∩ M) \ st.mines := by
    ext x
    simp only [hT, Finset.mem_inter, Finset.mem_filter, Finset.mem_sdiff]
    constructor
    · rintro ⟨⟨hx1, _, hx3⟩, hx4⟩
      exact ⟨⟨hx1, hx4⟩, hx3⟩
    · rintro ⟨⟨hx1, hx4⟩, hx3⟩
      exact ⟨⟨hx1, fun hs => hsafesM x hs hx4, hx3⟩, hx4⟩
  have hfm : cells.filter (fun c => c ∉ st.safes ∧ c ∈ st.mines) =
      (cells ∩ M) ∩ st.mines := by
    ext x
    simp only [Finset.mem_filter, Finset.mem_inter]
    constructor
    · rintro ⟨hx1, _, hx3⟩
      exact ⟨⟨hx1, hminesM hx3⟩, hx3⟩
    · rintro ⟨⟨hx1, hx4⟩, hx3⟩
      exact ⟨hx1, fun hs => hsafesM x hs hx4, hx3⟩
  have htk : ((t ∩ M).card : ℤ) = k := by
    rw [htM, hK, hfm]
    have hsd : (cells ∩ M) \ st.mines = (cells ∩ M) \ ((cells ∩ M) ∩ st.mines) := by
      rw [Finset.sdiff_inter_self_left]
    rw [hsd, Finset.card_sdiff Finset.inter_subset_left]
    have hle : ((cells ∩ M) ∩ st.mines).card ≤ (cells ∩ M).card :=
      Finset.card_le_card Finset.inter_subset_left
    have hcc : ((cells ∩ M).card : ℤ) = count := ht
    push_cast [Nat.cast_sub hle]
    omega
  by_cases h1 : t.Nonempty
  · rw [if_pos h1]
    by_cases h2 : k = 0
    · rw [if_pos h2]
      have hMfree : ∀ c ∈ t, c ∉ M := by
        have hcard0 : (t ∩ M).card = 0 := by
          have : ((t ∩ M).card : ℤ) = 0 := by rw [htk, h2]
          exact_mod_cast this
        have hempty : t ∩ M = ∅ := Finset.card_eq_zero.mp hcard0
        intro c hc hcM
        have : c ∈ t ∩ M := Finset.mem_inter.mpr ⟨hc, hcM⟩
        rw [hempty] at this
        exact absurd this (Finset.not_mem_empty c)
      have hres := markSafes_ok hM (fun c hc => ⟨hMfree c hc, htg hc⟩)
      refine ⟨hres.1, hres.2.1, ?_⟩
      intro s hs
      exact absurd hs (by simp)
    · rw [if_neg h2]
      by_cases h3 : (t.card : ℤ) = k
      · rw [if_pos h3]
        have htsubM : ∀ c ∈ t, c ∈ M := by
          have hcard : (t ∩ M).card = t.card := by
            have : ((t ∩ M).card : ℤ) = (t.card : ℤ) := by rw [htk, h3]
            exact_mod_cast this
          have heq : t ∩ M = t :=
            Finset.eq_of_subset_of_card_le Finset.inter_subset_left
              (le_of_eq hcard.symm)
          intro c hc
          rw [← heq] at hc
          exact (Finset.mem_inter.mp hc).2
        have hres := markMines_ok hM htsubM
        refine ⟨hres.1, hres.2.1, ?_⟩
        intro s hs
        exact absurd hs (by simp)
      · rw [if_neg h3]
        refine ⟨hM, prog_refl st, ?_⟩
        intro s hs
        have hseq : s = { cells := t, count := k } := (Option.some_inj.mp hs).symm
        subst hseq
        exact ⟨rfl, htk, htg, htclean⟩
  · rw [if_neg h1]
    refine ⟨hM, prog_refl st, ?_⟩
    intro s hs
    exact absurd hs (by simp)

theorem storeCleanUp_ok {M : Finset Cell} {st : AIState} {cells : Finset Cell}
    {count : ℤ} (hM : Consistent M st)
    (ht : TrueSent M { cells := cells, count := count })
    (hg : cells ⊆ allPossibleMoves st.height st.width) :
    Consistent M (storeResult (cleanUp st cells count)) ∧
    Prog st (storeResult (cleanUp st cells count)) := by
  obtain ⟨hC, hP, hsome⟩ := cleanUp_ok hM ht hg
  unfold storeResult addIfNewOpt
  rcases ho : (cleanUp st cells count).1 with _ | s
  · exact ⟨hC, hP⟩
  · obtain ⟨hst2, hts, hgs, hcls⟩ := hsome s ho
    rw [hst2]
    exact addIfNew_ok hM hts hgs hcls

/-!  Consistency and progress through local resolution and pairwise
inference.  -/

theorem mACbody_ok {M : Finset Cell} {s : Sentence} {st : AIState}
    (hM : Consistent M st) (hs : s ∈ st.knowledge) :
    Consistent M (mACbody s st) ∧ Prog st (mACbody s st) := by
  obtain ⟨hts, hgs⟩ := hM.2.2.2.1 s hs
  have hcls : ∀ c ∈ s.cells, c ∉ st.safes ∧ c ∉ st.mines := hM.2.2.2.2 s hs
  have hMf : Consistent M { st with kbChanged := true } := hM
  unfold mACbody
  split
  · next hfull =>
    obtain ⟨hne, hcard⟩ := hfull
    have hsubM : ∀ c ∈ s.cells, c ∈ M := by
      have hc : (s.cells ∩ M).card = s.cells.card := by
        have : ((s.cells ∩ M).card : ℤ) = (s.cells.card : ℤ) := by
          rw [hts, ← hcard]
        exact_mod_cast this
      have heq : s.cells ∩ M = s.cells :=
        Finset.eq_of_subset_of_card_le Finset.inter_subset_left (le_of_eq hc.symm)
      intro c hc2
      rw [← heq] at hc2
      exact (Finset.mem_inter.mp hc2).2
    have hres := markMines_ok hMf hsubM
    obtain ⟨c0, hc0⟩ := hne
    have hstrict : potential (markMines s.cells { st with kbChanged := true })
        < potential st :=
      hres.2.2 ⟨c0, hc0, (hcls c0 hc0).2⟩
    exact ⟨hres.1, prog_of_strict hres.2.1.1 hres.2.1.2.1 hstrict⟩
  · split
    · next hzero =>
      obtain ⟨hne, hcount⟩ := hzero
      have hMfree : ∀ c ∈ s.cells, c ∉ M := by
        have hc : (s.cells ∩ M).card = 0 := by
          have : ((s.cells ∩ M).card : ℤ) = 0 := by rw [hts, hcount]
          exact_mod_cast this
        have hempty : s.cells ∩ M = ∅ := Finset.card_eq_zero.mp hc
        intro c hc2 hcM
        have : c ∈ s.cells ∩ M := Finset.mem_inter.mpr ⟨hc2, hcM⟩
        rw [hempty] at this
        exact absurd this (Finset.not_mem_empty c)
      have hres := markSafes_ok hMf (fun c hc => ⟨hMfree c hc, hgs hc⟩)
      obtain ⟨c0, hc0⟩ := hne
      have hstrict : potential (markSafes s.cells { st with kbChanged := true })
          < potential st :=
        hres.2.2 ⟨c0, hc0, (hcls c0 hc0).1⟩
      exact ⟨hres.1, prog_of_strict hres.2.1.1 hres.2.1.2.1 hstrict⟩
    · exact ⟨hM, prog_refl st⟩

theorem mACgo_ok {M : Finset Cell} : ∀ (fuel i : ℕ) (st : AIState),
    Consistent M st → Consistent M (mACgo fuel i st) ∧ Prog st (mACgo fuel i st) := by
  intro fuel
  induction fuel with
  | zero => exact fun i st hM => ⟨hM, prog_refl st⟩
  | succ n ih =>
    intro i st hM
    unfold mACgo
    split
    · next s hget =>
      have hmem : s ∈ st.knowledge := List.get?_mem hget
      obtain ⟨hC1, hP1⟩ := mACbody_ok hM hmem
      obtain ⟨hC2, hP2⟩ := ih (i + 1) (mACbody s st) hC1
      exact ⟨hC2, prog_trans hP1 hP2⟩
    · exact ⟨hM, prog_refl st⟩

theorem markAdditionalCells_ok {M : Finset Cell} {st : AIState}
    (hM : Consistent M st) :
    Consistent M (markAdditionalCells st) ∧ Prog st (markAdditionalCells st) :=
  mACgo_ok _ 0 st hM

theorem getD_ok {M : Finset Cell} {st : AIState} (hM : Consistent M st) (i : ℕ) :
    TrueSent M (st.knowledge.getD i emptySentence) ∧
    (st.knowledge.getD i emptySentence).cells ⊆
      allPossibleMoves st.height st.width := by
  rw [List.getD_eq_get?]
  rcases hq : st.knowledge.get? i with _ | s
  · constructor
    · show TrueSent M emptySentence
      unfold TrueSent emptySentence
      simp
    · show (emptySentence).cells ⊆ _
      unfold emptySentence
      exact Finset.empty_subset _
  · exact hM.2.2.2.1 s (List.get?_mem hq)

theorem TrueSent_sdiff {M : Finset Cell} {s1 s2 : Sentence}
    (h1 : TrueSent M s1) (h2 : TrueSent M s2) (hsub : s1.cells ⊆ s2.cells) :
    TrueSent M { cells := s2.cells \ s1.cells, count := s2.count - s1.count } := by
  unfold TrueSent at h1 h2 ⊢
  have he : (s2.cells \ s1.cells) ∩ M = (s2.cells ∩ M) \ (s1.cells ∩ M) := by
    ext x
    simp only [Finset.mem_sdiff, Finset.mem_inter]
    constructor
    · rintro ⟨⟨hx1, hx2⟩, hx3⟩
      exact ⟨⟨hx1, hx3⟩, fun hc => hx2 hc.1⟩
    · rintro ⟨⟨hx1, hx3⟩, hx2⟩
      exact ⟨⟨hx1, fun hc => hx2 ⟨hc, hx3⟩⟩, hx3⟩
  have hsub2 : s1.cells ∩ M ⊆ s2.cells ∩ M :=
    Finset.inter_subset_inter hsub (Finset.Subset.refl M)
  rw [he, Finset.card_sdiff hsub2]
  have hle : (s1.cells ∩ M).card ≤ (s2.cells ∩ M).card :=
    Finset.card_le_card hsub2
  push_cast [Nat.cast_sub hle]
  omega

theorem aISbody_ok {M : Finset Cell} {st : AIState} (hM : Consistent M st)
    (p : ℕ × ℕ) : Consistent M (aISbody st p) ∧ Prog st (aISbody st p) := by
  obtain ⟨ht1, hg1⟩ := getD_ok hM p.1
  obtain ⟨ht2, hg2⟩ := getD_ok hM p.2
  unfold aISbody aIScore
  split
  · next hsub =>
    exact storeCleanUp_ok hM (TrueSent_sdiff ht1 ht2 hsub.subset)
      (Finset.sdiff_subset.trans hg2)
  · split
    · next hsub =>
      exact storeCleanUp_ok hM (TrueSent_sdiff ht2 ht1 hsub.subset)
        (Finset.sdiff_subset.trans hg1)
    · exact ⟨hM, prog_refl st⟩

theorem foldl_ok {α : Type} {M : Finset Cell} (f : AIState → α → AIState)
    (hstep : ∀ (st : AIState) (x : α), Consistent M st →
      Consistent M (f st x) ∧ Prog st (f st x)) :
    ∀ (l : List α) (st : AIState), Consistent M st →
      Consistent M (l.foldl f st) ∧ Prog st (l.foldl f st) := by
  intro l
  induction l with
  | nil => exact fun st hM => ⟨hM, prog_refl st⟩
  | cons x l ih =>
    intro st hM
    obtain ⟨hC1, hP1⟩ := hstep st x hM
    obtain ⟨hC2, hP2⟩ := ih (f st x) hC1
    exact ⟨hC2, prog_trans hP1 hP2⟩

theorem addInferredSentence_ok {M : Finset Cell} {st : AIState}
    (hM : Consistent M st) :
    Consistent M (addInferredSentence st) ∧ Prog st (addInferredSentence st) :=
  foldl_ok aISbody (fun st p h => aISbody_ok h p) (uniquePairs st) st hM

/-!  Termination of the fixed-point loop under consistency.  -/

theorem deducePass_ok {M : Finset Cell} {st : AIState} (hM : Consistent M st) :
    Consistent M (deducePass st) ∧
    potential (deducePass st) ≤ potential st ∧
    ((deducePass st).kbChanged = true → potential (deducePass st) < potential st) := by
  unfold deducePass
  have hM0 : Consistent M { st with kbChanged := false } := hM
  obtain ⟨hC1, hP1⟩ := markAdditionalCells_ok hM0
  obtain ⟨hC2, hP2⟩ := addInferredSentence_ok hC1
  have hP : Prog { st with kbChanged := false }
      (addInferredSentence (markAdditionalCells { st with kbChanged := false })) :=
    prog_trans hP1 hP2
  have hpot0 : potential { st with kbChanged := false } = potential st := rfl
  refine ⟨hC2, ?_, ?_⟩
  · rw [← hpot0]
    exact hP.2.2.1
  · intro hflag
    rcases hP.2.2.2 hflag with habs | hlt
    · exact absurd habs (by simp)
    · rw [← hpot0]
      exact hlt

theorem deduceLoop_flag_false {st : AIState} (fuel : ℕ)
    (h : st.kbChanged = false) : deduceLoop fuel st = some st := by
  cases fuel with
  | zero =>
    unfold deduceLoop
    rw [h]
    rfl
  | succ n =>
    unfold deduceLoop
    rw [h]
    rfl

theorem deduceLoop_term {M : Finset Cell} :
    ∀ (n : ℕ) (st : AIState), Consistent M st → potential st ≤ n →
      ∃ st', deduceLoop (n + 1) st = some st' := by
  intro n
  induction n with
  | zero =>
    intro st hM hpot
    by_cases hflag : st.kbChanged = true
    · have hpass := deducePass_ok hM
      have hflag2 : (deducePass st).kbChanged = false := by
        rcases hb : (deducePass st).kbChanged with _ | _
        · rfl
        · have := hpass.2.2 hb
          omega
      unfold deduceLoop
      rw [if_pos hflag]
      exact ⟨deducePass st, deduceLoop_flag_false 0 hflag2⟩
    · refine ⟨st, ?_⟩
      unfold deduceLoop
      rw [if_neg hflag]
  | succ n ih =>
    intro st hM hpot
    by_cases hflag : st.kbChanged = true
    · have hpass := deducePass_ok hM
      unfold deduceLoop
      rw [if_pos hflag]
      by_cases hflag2 : (deducePass st).kbChanged = true
      · have hlt := hpass.2.2 hflag2
        exact ih (deducePass st) hpass.1 (by omega)
      · refine ⟨deducePass st, ?_⟩
        refine deduceLoop_flag_false (n + 1) ?_
        rcases hb : (deducePass st).kbChanged with _ | _
        · rfl
        · exact absurd hb hflag2
    · refine ⟨st, ?_⟩
      unfold deduceLoop
      rw [if_neg hflag]

theorem neighbors_subset_grid (h w : ℕ) (cell : Cell) :
    neighbors h w cell ⊆ allPossibleMoves h w := by
  intro x hx
  unfold neighbors at hx
  obtain ⟨-, hb⟩ := Finset.mem_filter.mp hx
  obtain ⟨-, h1, h2, h3, h4⟩ := hb
  unfold allPossibleMoves
  rw [Finset.mem_image]
  refine ⟨(x.1.toNat, x.2.toNat), ?_, ?_⟩
  · rw [Finset.mem_product, Finset.mem_range, Finset.mem_range]
    constructor
    · omega
    · omega
  · exact Prod.ext (Int.toNat_of_nonneg h1) (Int.toNat_of_nonneg h3)

/-- Claim C8: for every consistent knowledge base (one whose marks and
stored sentences agree with a fixed mine set `M` on the grid), every
call to `observe` with an in-bounds non-mine cell and the count the
board reports for it terminates: some fuel makes the fixed-point loop
reach a pass with no change and return.  (`mark_mine`, `mark_safe`,
`safe_move` and `random_move` are straight-line total functions of the
embedding, so only the loop needed an argument.) -/
theorem claim8_observe_terminates (M : Finset Cell) (st : AIState) (cell : Cell)
    (count : ℤ) (hM : Consistent M st)
    (hgrid : cell ∈ allPossibleMoves st.height st.width)
    (hcM : cell ∉ M)
    (hcount : count = ((neighbors st.height st.width cell ∩ M).card : ℤ)) :
    ∃ (fuel : ℕ) (st' : AIState), addKnowledge fuel cell count st = some st' := by
  have hM1 : Consistent M { st with movesMade := insert cell st.movesMade } := hM
  have hM2 : Consistent M
      (markSafe cell { st with movesMade := insert cell st.movesMade }) :=
    markSafe_consistent hM1 hcM
  set st2 := markSafe cell { st with movesMade := insert cell st.movesMade } with hst2
  have hh2 : st2.height = st.height := markSafe_height _ _
  have hw2 : st2.width = st.width := markSafe_width _ _
  have htn : TrueSent M
      { cells := neighbors st2.height st2.width cell, count := count } := by
    unfold TrueSent
    simp only
    rw [hh2, hw2, hcount]
  have hgn : neighbors st2.height st2.width cell ⊆
      allPossibleMoves st2.height st2.width := by
    rw [hh2, hw2]
    exact neighbors_subset_grid _ _ _
  have hM3 : Consistent M (addNewSentence cell count st2) :=
    (storeCleanUp_ok hM2 htn hgn).1
  obtain ⟨hC4, _⟩ := markAdditionalCells_ok hM3
  obtain ⟨hC5, _⟩ := addInferredSentence_ok hC4
  set st5 := addInferredSentence (markAdditionalCells (addNewSentence cell count st2))
    with hst5
  obtain ⟨st', hst'⟩ := deduceLoop_term (potential st5) st5 hC5 (Nat.le_refl _)
  exact ⟨potential st5 + 1, st', hst'⟩

/-- Claim C8 witness: termination of a concrete observe on a fresh 3 by
3 knowledge base consistent with the single mine `(0,0)`. -/
theorem claim8_witness :
    ∃ (fuel : ℕ) (st' : AIState),
      addKnowledge fuel (1,1) 1 (initialState 3 3) = some st' :=
  claim8_observe_terminates {(0,0)} (initialState 3 3) (1,1) 1
    (by decide) (by decide) (by decide) (by decide)
